import Mathlib

/-!
Verification of the scram fault-tree analysis core (Boolean graph, MOCUS
driver, probability approximations) against its natural-language
specification.

The development shallowly embeds the data model and operations of
`boolean_graph.h`, `mocus.cc` and `probability_analysis.h`.  Pointers are
replaced by integer indices: every node of a Boolean graph is identified by
its unique positive `index`, children of a gate are signed indices
(`std::set<int> children_`), and the weak parent back-references
(`boost::unordered_map<int, weak_ptr<IGate>> parents_`) become a global map
from node index to the set of parent gate indices.  The three kind maps
(`gate_children_`, `variable_children_`, `constant_children_`) are embedded
as their key sets; `IGate::EraseChild` looks the maps up with the signed
child index, so the keys are the signed indices.

Member-function bodies that live in translation units absent from the
excerpt (`IGate::AddChild` and friends, the ZBDD cut-set container, the
probability approximations) are modelled from the specification; each such
definition carries a doc comment starting with `Modelled from the spec:`.
-/

set_option autoImplicit false

namespace scram

/-- `enum Operator` of `boolean_graph.h`: Boolean operators of gates. -/
inductive Operator
  | kAndGate
  | kOrGate
  | kAtleastGate
  | kXorGate
  | kNotGate
  | kNandGate
  | kNorGate
  | kNullGate
deriving DecidableEq, Repr

export Operator (kAndGate kOrGate kAtleastGate kXorGate kNotGate kNandGate kNorGate kNullGate)

/-- `enum State` of `boolean_graph.h`: state of a gate as a set of events. -/
inductive State
  | kNormalState
  | kNullState
  | kUnityState
deriving DecidableEq, Repr

export State (kNormalState kNullState kUnityState)

/-- Which of the three kind maps of an `IGate` a child belongs to:
children that are gates, variables, or constants. -/
inductive ChildKind
  | gateChild
  | variableChild
  | constantChild
deriving DecidableEq, Repr

/-- The per-gate data of `class IGate`.  `children_` is the set of signed
child indices; the three kind maps are embedded by their key sets (the
signed indices, as witnessed by the lookups in `IGate::EraseChild`). -/
structure IGate where
  type_ : Operator
  state_ : State
  vote_number_ : Int
  mark_ : Bool
  min_time_ : Nat
  max_time_ : Nat
  module_ : Bool
  children_ : Finset Int
  gate_children_ : Finset Int
  variable_children_ : Finset Int
  constant_children_ : Finset Int
  num_failed_children_ : Int
deriving DecidableEq

/-- A whole Boolean graph: the data of every gate (indexed by the gate's
positive node index), the parent map of every node (`Node::parents_`,
node index to set of parent gate indices), and the Boolean value of every
constant node (`Constant::state_`, needed when a constant child is added). -/
structure GraphState where
  gateData : Nat → IGate
  parents_ : Nat → Finset Nat
  constValue : Nat → Bool

/-- Modelled from the spec: a freshly constructed `IGate` (the constructor
body is outside the excerpt) starts in the normal state with no children
and cleared scratch fields. -/
def IGate.fresh (t : Operator) : IGate :=
  { type_ := t
    state_ := kNormalState
    vote_number_ := 0
    mark_ := false
    min_time_ := 0
    max_time_ := 0
    module_ := false
    children_ := ∅
    gate_children_ := ∅
    variable_children_ := ∅
    constant_children_ := ∅
    num_failed_children_ := 0 }

/-- The graph state in which every gate is fresh and no node has parents. -/
def GraphState.init : GraphState :=
  { gateData := fun _ => IGate.fresh kOrGate
    parents_ := fun _ => ∅
    constValue := fun _ => false }

/-- Replace the data of gate `g`. -/
def GraphState.updGate (s : GraphState) (g : Nat) (d : IGate) : GraphState :=
  { s with gateData := fun i => if i = g then d else s.gateData i }

/-- Record gate `g` as a parent of the node with index `v`
(`node->parents_.insert(...)`). -/
def GraphState.addParent (s : GraphState) (v : Nat) (g : Nat) : GraphState :=
  { s with parents_ := fun i => if i = v then insert g (s.parents_ i) else s.parents_ i }

/-- Erase gate `g` from the parents of the node with index `v`
(`node->parents_.erase(Node::index())`). -/
def GraphState.delParent (s : GraphState) (v : Nat) (g : Nat) : GraphState :=
  { s with parents_ := fun i => if i = v then (s.parents_ i).erase g else s.parents_ i }

@[simp] theorem updGate_gateData_self (s : GraphState) (g : Nat) (d : IGate) :
    (s.updGate g d).gateData g = d := by
  simp [GraphState.updGate]

theorem updGate_gateData_ne (s : GraphState) (g : Nat) (d : IGate) {g' : Nat} (h : g' ≠ g) :
    (s.updGate g d).gateData g' = s.gateData g' := by
  simp [GraphState.updGate, h]

@[simp] theorem updGate_parents (s : GraphState) (g : Nat) (d : IGate) (v : Nat) :
    (s.updGate g d).parents_ v = s.parents_ v := rfl

@[simp] theorem addParent_gateData (s : GraphState) (v g g' : Nat) :
    (s.addParent v g).gateData g' = s.gateData g' := rfl

@[simp] theorem delParent_gateData (s : GraphState) (v g g' : Nat) :
    (s.delParent v g).gateData g' = s.gateData g' := rfl

theorem addParent_parents (s : GraphState) (v g : Nat) (v' : Nat) :
    (s.addParent v g).parents_ v' = if v' = v then insert g (s.parents_ v') else s.parents_ v' := rfl

theorem delParent_parents (s : GraphState) (v g : Nat) (v' : Nat) :
    (s.delParent v g).parents_ v' = if v' = v then (s.parents_ v').erase g else s.parents_ v' := rfl

@[simp] theorem updGate_constValue (s : GraphState) (g : Nat) (d : IGate) :
    (s.updGate g d).constValue = s.constValue := rfl

@[simp] theorem addParent_constValue (s : GraphState) (v g : Nat) :
    (s.addParent v g).constValue = s.constValue := rfl

@[simp] theorem delParent_constValue (s : GraphState) (v g : Nat) :
    (s.delParent v g).constValue = s.constValue := rfl

/-- `IGate::EraseChild` (inline in `boolean_graph.h`): remove `child` from
`children_`, remove it from the kind map that holds it (looked up with the
signed index, dispatching gate, then constant, then variable), and erase
this gate's index from the child node's parents. -/
def IGate.EraseChild (s : GraphState) (g : Nat) (child : Int) : GraphState :=
  let d := s.gateData g
  let d1 := { d with children_ := d.children_.erase child }
  let d2 :=
    if child ∈ d1.gate_children_ then
      { d1 with gate_children_ := d1.gate_children_.erase child }
    else if child ∈ d1.constant_children_ then
      { d1 with constant_children_ := d1.constant_children_.erase child }
    else
      { d1 with variable_children_ := d1.variable_children_.erase child }
  (s.updGate g d2).delParent child.natAbs g

theorem EraseChild_children_self (s : GraphState) (g : Nat) (child : Int) :
    ((IGate.EraseChild s g child).gateData g).children_ =
      ((s.gateData g).children_).erase child := by
  simp only [IGate.EraseChild]
  split <;> try split
  all_goals simp

theorem EraseChild_gateData_ne (s : GraphState) (g : Nat) (child : Int)
    {g' : Nat} (h : g' ≠ g) :
    (IGate.EraseChild s g child).gateData g' = s.gateData g' := by
  simp only [IGate.EraseChild, delParent_gateData]
  rw [updGate_gateData_ne _ _ _ h]

theorem EraseChild_state (s : GraphState) (g : Nat) (child : Int) :
    ((IGate.EraseChild s g child).gateData g).state_ = ((s.gateData g)).state_ := by
  simp only [IGate.EraseChild]
  split <;> try split
  all_goals simp

theorem EraseChild_type (s : GraphState) (g : Nat) (child : Int) :
    ((IGate.EraseChild s g child).gateData g).type_ = ((s.gateData g)).type_ := by
  simp only [IGate.EraseChild]
  split <;> try split
  all_goals simp

theorem EraseChild_card_lt (s : GraphState) (g : Nat) (child : Int)
    (h : child ∈ (s.gateData g).children_) :
    ((IGate.EraseChild s g child).gateData g).children_.card <
      ((s.gateData g)).children_.card := by
  rw [EraseChild_children_self]
  exact Finset.card_erase_lt_of_mem h

/-- `IGate::EraseAllChildren`: repeatedly erase the largest child
(`*children_.rbegin()`) until the children set is empty. -/
def IGate.EraseAllChildren (s : GraphState) (g : Nat) : GraphState :=
  if h : ((s.gateData g).children_).Nonempty then
    IGate.EraseAllChildren (IGate.EraseChild s g (((s.gateData g).children_).max' h)) g
  else s
termination_by ((s.gateData g).children_).card
decreasing_by
  exact EraseChild_card_lt s g _ (Finset.max'_mem _ h)

/-- `IGate::Nullify`: set the state to null and clear all children
(precondition in the source: the state is normal). -/
def IGate.Nullify (s : GraphState) (g : Nat) : GraphState :=
  IGate.EraseAllChildren (s.updGate g { s.gateData g with state_ := kNullState }) g

/-- `IGate::MakeUnity`: set the state to unity and clear all children
(precondition in the source: the state is normal). -/
def IGate.MakeUnity (s : GraphState) (g : Nat) : GraphState :=
  IGate.EraseAllChildren (s.updGate g { s.gateData g with state_ := kUnityState }) g

theorem EraseAllChildren_children_self (s : GraphState) (g : Nat) :
    ((IGate.EraseAllChildren s g).gateData g).children_ = ∅ := by
  induction s, g using IGate.EraseAllChildren.induct with
  | case1 s g h ih =>
      rw [IGate.EraseAllChildren]
      simp only [h, dite_true]
      exact ih
  | case2 s g h =>
      rw [IGate.EraseAllChildren]
      simp only [h, dite_false]
      exact Finset.not_nonempty_iff_eq_empty.mp h

theorem EraseAllChildren_gateData_ne (s : GraphState) (g : Nat) {g' : Nat} (h : g' ≠ g) :
    (IGate.EraseAllChildren s g).gateData g' = s.gateData g' := by
  induction s, g using IGate.EraseAllChildren.induct with
  | case1 s g hne ih =>
      rw [IGate.EraseAllChildren]
      simp only [hne, dite_true]
      rw [ih h, EraseChild_gateData_ne _ _ _ h]
  | case2 s g hne =>
      rw [IGate.EraseAllChildren]
      simp only [hne, dite_false]

theorem EraseAllChildren_state (s : GraphState) (g : Nat) :
    ((IGate.EraseAllChildren s g).gateData g).state_ = (s.gateData g).state_ := by
  induction s, g using IGate.EraseAllChildren.induct with
  | case1 s g hne ih =>
      rw [IGate.EraseAllChildren]
      simp only [hne, dite_true]
      rw [ih, EraseChild_state]
  | case2 s g hne =>
      rw [IGate.EraseAllChildren]
      simp only [hne, dite_false]

theorem EraseAllChildren_type (s : GraphState) (g : Nat) :
    ((IGate.EraseAllChildren s g).gateData g).type_ = (s.gateData g).type_ := by
  induction s, g using IGate.EraseAllChildren.induct with
  | case1 s g hne ih =>
      rw [IGate.EraseAllChildren]
      simp only [hne, dite_true]
      rw [ih, EraseChild_type]
  | case2 s g hne =>
      rw [IGate.EraseAllChildren]
      simp only [hne, dite_false]

theorem Nullify_state (s : GraphState) (g : Nat) :
    ((IGate.Nullify s g).gateData g).state_ = kNullState := by
  rw [IGate.Nullify, EraseAllChildren_state]
  simp

theorem Nullify_children (s : GraphState) (g : Nat) :
    ((IGate.Nullify s g).gateData g).children_ = ∅ :=
  EraseAllChildren_children_self _ g

theorem Nullify_gateData_ne (s : GraphState) (g : Nat) {g' : Nat} (h : g' ≠ g) :
    (IGate.Nullify s g).gateData g' = s.gateData g' := by
  rw [IGate.Nullify, EraseAllChildren_gateData_ne _ _ h, updGate_gateData_ne _ _ _ h]

theorem MakeUnity_state (s : GraphState) (g : Nat) :
    ((IGate.MakeUnity s g).gateData g).state_ = kUnityState := by
  rw [IGate.MakeUnity, EraseAllChildren_state]
  simp

theorem MakeUnity_children (s : GraphState) (g : Nat) :
    ((IGate.MakeUnity s g).gateData g).children_ = ∅ :=
  EraseAllChildren_children_self _ g

theorem MakeUnity_gateData_ne (s : GraphState) (g : Nat) {g' : Nat} (h : g' ≠ g) :
    (IGate.MakeUnity s g).gateData g' = s.gateData g' := by
  rw [IGate.MakeUnity, EraseAllChildren_gateData_ne _ _ h, updGate_gateData_ne _ _ _ h]

/-- Modelled from the spec: a Boolean constant child with value `b` added
with a negative index denotes `¬ b`; such a child nullifies an AND gate
when its effective value is false and a NOR gate when it is true
("absorbing constant"). -/
def constantNullifies (t : Operator) (v : Bool) : Bool :=
  match t, v with
  | kAndGate, false => true
  | kNorGate, true => true
  | _, _ => false

/-- Modelled from the spec: an absorbing constant turns an OR gate into
unity when its effective value is true and a NAND gate when it is false. -/
def constantUnifies (t : Operator) (v : Bool) : Bool :=
  match t, v with
  | kOrGate, true => true
  | kNandGate, false => true
  | _, _ => false

/-- The bookkeeping common to all three `AddChild` overloads once the new
child is known to be neither a duplicate nor a complement: insert the
signed index into `children_` and into the kind map selected by the
overload, and register this gate in the child node's parents. -/
def IGate.insertChildRecord (s : GraphState) (g : Nat) (child : Int) (k : ChildKind) : GraphState :=
  let d := s.gateData g
  let d1 := { d with children_ := insert child d.children_ }
  let d2 :=
    match k with
    | ChildKind.gateChild => { d1 with gate_children_ := insert child d1.gate_children_ }
    | ChildKind.variableChild => { d1 with variable_children_ := insert child d1.variable_children_ }
    | ChildKind.constantChild => { d1 with constant_children_ := insert child d1.constant_children_ }
  (s.updGate g d2).addParent child.natAbs g

/-- Modelled from the spec: `IGate::ProcessDuplicateChild` (body outside
the excerpt).  Adding a child that is already present is idempotent for
AND/OR/NAND/NOR; an XOR gate flips to constant null (`A ⊕ A = 0`); an
ATLEAST gate decrements its effective vote number.  The return value, per
the spec's contract for `add_child`, reports only collapses caused by a
complement duplicate or an absorbing constant, so it is false here. -/
def IGate.ProcessDuplicateChild (s : GraphState) (g : Nat) (_child : Int) : Bool × GraphState :=
  match (s.gateData g).type_ with
  | kXorGate => (false, IGate.Nullify s g)
  | kAtleastGate =>
      (false, s.updGate g { s.gateData g with vote_number_ := (s.gateData g).vote_number_ - 1 })
  | _ => (false, s)

/-- Modelled from the spec: `IGate::ProcessComplementChild` (body outside
the excerpt).  With `A` and `¬A` among the children, an AND or NOR gate
becomes null, an OR, NAND or XOR gate becomes unity (a NOT or NULL gate
never legally receives a second child; they are modelled like OR), and an
ATLEAST(k) gate drops the complement pair and decrements k (exactly one of
`A`, `¬A` always holds).  True is returned for the constant collapses. -/
def IGate.ProcessComplementChild (s : GraphState) (g : Nat) (child : Int) : Bool × GraphState :=
  match (s.gateData g).type_ with
  | kAndGate => (true, IGate.Nullify s g)
  | kNorGate => (true, IGate.Nullify s g)
  | kAtleastGate =>
      let s1 := IGate.EraseChild s g (-child)
      (false, s1.updGate g { s1.gateData g with vote_number_ := (s1.gateData g).vote_number_ - 1 })
  | _ => (true, IGate.MakeUnity s g)

/-- Modelled from the spec: the three `IGate::AddChild` overloads (bodies
outside the excerpt), merged into one function with the overload selected
by `k`.  A gate already in a constant state ignores further additions.  A
duplicate or complement child is delegated to the processing helpers; a
constant child may be absorbing and collapse the gate; otherwise the child
is inserted.  The returned Boolean is the spec's "became constant":
true exactly when a complement duplicate or an absorbing constant
collapsed the gate. -/
def IGate.AddChild (s : GraphState) (g : Nat) (child : Int) (k : ChildKind) : Bool × GraphState :=
  let d := s.gateData g
  if d.state_ ≠ kNormalState then (true, s)
  else if child ∈ d.children_ then IGate.ProcessDuplicateChild s g child
  else if -child ∈ d.children_ then IGate.ProcessComplementChild s g child
  else
    match k with
    | ChildKind.constantChild =>
        let v := if child < 0 then !(s.constValue child.natAbs) else s.constValue child.natAbs
        if constantNullifies d.type_ v then (true, IGate.Nullify s g)
        else if constantUnifies d.type_ v then (true, IGate.MakeUnity s g)
        else (false, IGate.insertChildRecord s g child k)
    | _ => (false, IGate.insertChildRecord s g child k)

/-- The kind map of gate data `d` holding the signed index `child`,
dispatching in the order used by `IGate::EraseChild` (gate, constant,
else variable). -/
def IGate.childKindOf (d : IGate) (child : Int) : ChildKind :=
  if child ∈ d.gate_children_ then ChildKind.gateChild
  else if child ∈ d.constant_children_ then ChildKind.constantChild
  else ChildKind.variableChild

/-- Modelled from the spec: `IGate::TransferChild` (body outside the
excerpt) moves a child to another gate: it is added to the recipient with
its kind and erased from this gate, updating parent back-references.  The
Boolean reports whether the recipient became constant. -/
def IGate.TransferChild (s : GraphState) (g : Nat) (child : Int) (recipient : Nat) :
    Bool × GraphState :=
  let k := IGate.childKindOf (s.gateData g) child
  let r := IGate.AddChild s recipient child k
  (r.1, IGate.EraseChild r.2 g child)

/-- Modelled from the spec: `IGate::ShareChild` (body outside the excerpt)
aliases a child into another gate: it is added to the recipient with its
kind and kept in this gate. -/
def IGate.ShareChild (s : GraphState) (g : Nat) (child : Int) (recipient : Nat) :
    Bool × GraphState :=
  IGate.AddChild s recipient child (IGate.childKindOf (s.gateData g) child)

/-- Modelled from the spec: `IGate::JoinGate` (body outside the excerpt)
coalesces the positive child gate `child_gate` into this gate: the child
gate is erased from the children list and each of its children is added
with its own sign and kind.  True is returned when the final state is
normal. -/
def IGate.JoinGate (s : GraphState) (g : Nat) (child_gate : Nat) : Bool × GraphState :=
  let src := s.gateData child_gate
  let s1 := IGate.EraseChild s g (child_gate : Int)
  let s2 := (src.children_.sort (· ≤ ·)).foldl
      (fun acc c =>
        let r := IGate.AddChild acc.2 g c (IGate.childKindOf src c)
        (acc.1 || r.1, r.2))
      (false, s1)
  (decide ((s2.2.gateData g).state_ = kNormalState), s2.2)

/-! ### Structural invariants of the Boolean graph (claims C1 and C2) -/

/-- Local well-formedness of one gate's containers: no zero child index,
no child together with its complement, and the children set is partitioned
by the three kind maps (keyed by the signed index). -/
def IGate.wf (d : IGate) : Prop :=
  (0 : Int) ∉ d.children_ ∧
  (∀ c : Int, c ∈ d.children_ → -c ∉ d.children_) ∧
  (∀ c : Int, c ∈ d.children_ ↔
    (c ∈ d.gate_children_ ∨ c ∈ d.variable_children_ ∨ c ∈ d.constant_children_)) ∧
  (∀ c : Int, ¬(c ∈ d.gate_children_ ∧ c ∈ d.variable_children_)) ∧
  (∀ c : Int, ¬(c ∈ d.gate_children_ ∧ c ∈ d.constant_children_)) ∧
  (∀ c : Int, ¬(c ∈ d.variable_children_ ∧ c ∈ d.constant_children_))

/-- The parent back-reference invariant: a node (of index `v`) occurs,
positively or negatively, among the children of gate `g` exactly when `g`
is a key of the node's parents map. -/
def linkedParents (s : GraphState) : Prop :=
  ∀ (g v : Nat),
    ((v : Int) ∈ (s.gateData g).children_ ∨ -(v : Int) ∈ (s.gateData g).children_) ↔
      g ∈ s.parents_ v

/-- The full child/parent consistency invariant of a Boolean graph. -/
def Inv (s : GraphState) : Prop :=
  (∀ g : Nat, (s.gateData g).wf) ∧ linkedParents s

/-- The signed index `c` is a key of exactly one of the three kind maps. -/
def exactlyOneKindKey (d : IGate) (c : Int) : Prop :=
  (c ∈ d.gate_children_ ∧ c ∉ d.variable_children_ ∧ c ∉ d.constant_children_) ∨
  (c ∈ d.variable_children_ ∧ c ∉ d.gate_children_ ∧ c ∉ d.constant_children_) ∨
  (c ∈ d.constant_children_ ∧ c ∉ d.gate_children_ ∧ c ∉ d.variable_children_)

theorem Inv_init : Inv GraphState.init := by
  constructor
  · intro g
    refine ⟨?_, ?_, ?_, ?_, ?_, ?_⟩ <;>
      simp [GraphState.init, IGate.fresh]
  · intro g v
    simp [GraphState.init, IGate.fresh]

theorem natAbs_cases (c : Int) : c = (c.natAbs : Int) ∨ c = -(c.natAbs : Int) :=
  Int.natAbs_eq c

theorem coe_ne_of_natAbs_ne {c : Int} {v : Nat} (h : v ≠ c.natAbs) :
    (v : Int) ≠ c ∧ -(v : Int) ≠ c := by
  constructor
  · intro hc
    apply h
    rw [← hc, Int.natAbs_ofNat]
  · intro hc
    apply h
    rw [← hc]
    simp

theorem wf_insertChildRecord (s : GraphState) (g : Nat) (child : Int) (k : ChildKind)
    (hwf : ∀ g', (s.gateData g').wf)
    (h0 : child ≠ 0)
    (h1 : child ∉ (s.gateData g).children_)
    (h2 : -child ∉ (s.gateData g).children_) :
    ∀ g', ((IGate.insertChildRecord s g child k).gateData g').wf := by
  intro g'
  by_cases hg : g' = g
  · subst hg
    obtain ⟨w0, w1, w2, w3, w4, w5⟩ := hwf g'
    have hkg : child ∉ (s.gateData g').gate_children_ := fun hc => h1 ((w2 child).mpr (Or.inl hc))
    have hkv : child ∉ (s.gateData g').variable_children_ :=
      fun hc => h1 ((w2 child).mpr (Or.inr (Or.inl hc)))
    have hkc : child ∉ (s.gateData g').constant_children_ :=
      fun hc => h1 ((w2 child).mpr (Or.inr (Or.inr hc)))
    cases k <;>
      (simp only [IGate.insertChildRecord, addParent_gateData, updGate_gateData_self]
       refine ⟨?_, ?_, ?_, ?_, ?_, ?_⟩
       case' _ =>
         simp only [Finset.mem_insert]
         rintro (h | h)
         · exact h0 h.symm
         · exact w0 h
       case' _ =>
         intro c hmem hnegmem
         simp only [Finset.mem_insert] at hmem hnegmem
         rcases hmem with rfl | hc
         · rcases hnegmem with he | hne
           · exact h0 (by omega)
           · exact h2 hne
         · rcases hnegmem with he | hne
           · have hcd : c = -child := by omega
             subst hcd
             exact h2 hc
           · exact w1 c hc hne)
    all_goals
      intro c
      have hw2 := w2 c
      have hw3 := w3 c
      have hw4 := w4 c
      have hw5 := w5 c
      by_cases hcc : c = child
      · subst hcc
        simp only [Finset.mem_insert, true_or, eq_self_iff_true]
        try tauto
      · simp only [Finset.mem_insert, hcc, false_or]
        try tauto
  · have : (IGate.insertChildRecord s g child k).gateData g' = s.gateData g' := by
      simp only [IGate.insertChildRecord, addParent_gateData]
      exact updGate_gateData_ne _ _ _ hg
    rw [this]
    exact hwf g'

theorem insertChildRecord_children_self (s : GraphState) (g : Nat) (child : Int) (k : ChildKind) :
    ((IGate.insertChildRecord s g child k).gateData g).children_ =
      insert child (s.gateData g).children_ := by
  cases k <;> simp [IGate.insertChildRecord]

theorem insertChildRecord_gateData_ne (s : GraphState) (g : Nat) (child : Int) (k : ChildKind)
    {g' : Nat} (h : g' ≠ g) :
    (IGate.insertChildRecord s g child k).gateData g' = s.gateData g' := by
  simp only [IGate.insertChildRecord, addParent_gateData]
  exact updGate_gateData_ne _ _ _ h

theorem insertChildRecord_parents (s : GraphState) (g : Nat) (child : Int) (k : ChildKind)
    (v : Nat) :
    (IGate.insertChildRecord s g child k).parents_ v =
      if v = child.natAbs then insert g (s.parents_ v) else s.parents_ v := by
  cases k <;> rfl

theorem insertChildRecord_state (s : GraphState) (g : Nat) (child : Int) (k : ChildKind) :
    ((IGate.insertChildRecord s g child k).gateData g).state_ = (s.gateData g).state_ := by
  cases k <;> simp [IGate.insertChildRecord]

theorem linked_insertChildRecord (s : GraphState) (g : Nat) (child : Int) (k : ChildKind)
    (hl : linkedParents s) :
    linkedParents (IGate.insertChildRecord s g child k) := by
  intro g' v
  rw [insertChildRecord_parents]
  by_cases hg : g' = g
  · subst hg
    rw [insertChildRecord_children_self]
    by_cases hv : v = child.natAbs
    · subst hv
      simp only [if_pos rfl, Finset.mem_insert]
      constructor
      · intro _
        exact Finset.mem_insert_self g' _
      · intro _
        rcases natAbs_cases child with h | h
        · exact Or.inl (Or.inl h.symm)
        · exact Or.inr (Or.inl (by omega))
    · obtain ⟨hne1, hne2⟩ := coe_ne_of_natAbs_ne hv
      simp only [if_neg hv, Finset.mem_insert]
      rw [← hl g' v]
      constructor
      · rintro (h | h)
        · rcases h with h | h
          · exact absurd h hne1
          · exact Or.inl h
        · rcases h with h | h
          · exact absurd h hne2
          · exact Or.inr h
      · tauto
  · have := insertChildRecord_gateData_ne s g child k hg
    rw [this]
    by_cases hv : v = child.natAbs
    · subst hv
      rw [if_pos rfl]
      simp only [Finset.mem_insert]
      rw [← hl g' child.natAbs]
      constructor
      · intro h
        exact Or.inr h
      · rintro (h | h)
        · exact absurd h hg
        · exact h
    · simp only [if_neg hv]
      exact hl g' v

/-- Inv preservation by the common child-insertion bookkeeping. -/
theorem Inv_insertChildRecord (s : GraphState) (g : Nat) (child : Int) (k : ChildKind)
    (hInv : Inv s) (h0 : child ≠ 0)
    (h1 : child ∉ (s.gateData g).children_)
    (h2 : -child ∉ (s.gateData g).children_) :
    Inv (IGate.insertChildRecord s g child k) :=
  ⟨wf_insertChildRecord s g child k hInv.1 h0 h1 h2,
   linked_insertChildRecord s g child k hInv.2⟩

theorem EraseChild_kind_mem (s : GraphState) (g : Nat) (child : Int) (c : Int) :
    (c ∈ ((IGate.EraseChild s g child).gateData g).gate_children_ ∨
     c ∈ ((IGate.EraseChild s g child).gateData g).variable_children_ ∨
     c ∈ ((IGate.EraseChild s g child).gateData g).constant_children_) →
    (c ∈ (s.gateData g).gate_children_ ∨
     c ∈ (s.gateData g).variable_children_ ∨
     c ∈ (s.gateData g).constant_children_) := by
  simp only [IGate.EraseChild]
  split <;> try split
  all_goals
    simp only [delParent_gateData, updGate_gateData_self, Finset.mem_erase]
    tauto

/-- wf preservation by `IGate::EraseChild`. -/
theorem wf_EraseChild (s : GraphState) (g : Nat) (child : Int)
    (hwf : ∀ g', (s.gateData g').wf) :
    ∀ g', ((IGate.EraseChild s g child).gateData g').wf := by
  intro g'
  by_cases hg : g' = g
  · subst hg
    obtain ⟨w0, w1, w2, w3, w4, w5⟩ := hwf g'
    simp only [IGate.EraseChild]
    split <;> try split
    all_goals
      simp only [delParent_gateData, updGate_gateData_self]
      refine ⟨?_, ?_, ?_, ?_, ?_, ?_⟩
      · simp only [Finset.mem_erase]
        rintro ⟨-, h⟩
        exact w0 h
      · intro c hc
        simp only [Finset.mem_erase] at hc ⊢
        rintro ⟨-, hn⟩
        exact w1 c hc.2 hn
      all_goals
        intro c
        have hw2 := w2 c
        have hw3 := w3 c
        have hw4 := w4 c
        have hw5 := w5 c
        by_cases hcc : c = child
        · subst hcc
          simp only [Finset.mem_erase, ne_eq, not_true_eq_false, false_and]
          tauto
        · simp only [Finset.mem_erase, ne_eq, hcc, not_false_eq_true, true_and]
          tauto
  · rw [EraseChild_gateData_ne _ _ _ hg]
    exact hwf g'

theorem EraseChild_parents (s : GraphState) (g : Nat) (child : Int) (v : Nat) :
    (IGate.EraseChild s g child).parents_ v =
      if v = child.natAbs then (s.parents_ v).erase g else s.parents_ v := rfl

/-- linkedParents preservation by `IGate::EraseChild`, given that the child
is present and the gate data is well formed (the source asserts
`children_.count(child)`). -/
theorem linked_EraseChild (s : GraphState) (g : Nat) (child : Int)
    (hwf : ∀ g', (s.gateData g').wf)
    (hl : linkedParents s)
    (hmem : child ∈ (s.gateData g).children_) :
    linkedParents (IGate.EraseChild s g child) := by
  have h0 : child ≠ 0 := fun h => (hwf g).1 (h ▸ hmem)
  intro g' v
  rw [EraseChild_parents]
  by_cases hg : g' = g
  · subst hg
    rw [EraseChild_children_self]
    by_cases hv : v = child.natAbs
    · subst hv
      rw [if_pos rfl]
      have hnc := (hwf g').2.1 child hmem
      simp only [Finset.mem_erase]
      constructor
      · rintro (⟨hne, hc⟩ | ⟨hne, hc⟩)
        · exfalso
          rcases natAbs_cases child with hcase | hcase
          · exact hne hcase.symm
          · exact hnc (by rw [show -child = ((child.natAbs : Int)) by omega]; exact hc)
        · exfalso
          rcases natAbs_cases child with hcase | hcase
          · exact hnc (by rw [show -child = (-(child.natAbs : Int)) by omega]; exact hc)
          · exact hne hcase.symm
      · rintro ⟨hne, -⟩
        exact absurd rfl hne
    · obtain ⟨hne1, hne2⟩ := coe_ne_of_natAbs_ne hv
      simp only [if_neg hv, Finset.mem_erase]
      rw [← hl g' v]
      constructor
      · rintro (⟨-, h⟩ | ⟨-, h⟩) <;> tauto
      · rintro (h | h)
        · exact Or.inl ⟨hne1, h⟩
        · exact Or.inr ⟨hne2, h⟩
  · rw [EraseChild_gateData_ne _ _ _ hg]
    by_cases hv : v = child.natAbs
    · subst hv
      rw [if_pos rfl]
      simp only [Finset.mem_erase]
      rw [← hl g' child.natAbs]
      constructor
      · intro h
        exact ⟨hg, h⟩
      · rintro ⟨-, h⟩
        exact h
    · simp only [if_neg hv]
      exact hl g' v

/-- Inv preservation by `IGate::EraseChild`. -/
theorem Inv_EraseChild (s : GraphState) (g : Nat) (child : Int)
    (hInv : Inv s) (hmem : child ∈ (s.gateData g).children_) :
    Inv (IGate.EraseChild s g child) :=
  ⟨wf_EraseChild s g child hInv.1, linked_EraseChild s g child hInv.1 hInv.2 hmem⟩

/-- Inv preservation by `IGate::EraseAllChildren`. -/
theorem Inv_EraseAllChildren (s : GraphState) (g : Nat) :
    Inv s → Inv (IGate.EraseAllChildren s g) := by
  induction s, g using IGate.EraseAllChildren.induct with
  | case1 s g h ih =>
      intro hInv
      rw [IGate.EraseAllChildren]
      simp only [h, dite_true]
      exact ih (Inv_EraseChild s g _ hInv (Finset.max'_mem _ h))
  | case2 s g h =>
      intro hInv
      rw [IGate.EraseAllChildren]
      simp only [h, dite_false]
      exact hInv

/-- Replacing a gate's data without touching its children containers
preserves Inv (used for state and vote-number updates). -/
theorem Inv_updGate_same_sets (s : GraphState) (g : Nat) (d : IGate)
    (hch : d.children_ = (s.gateData g).children_)
    (hgc : d.gate_children_ = (s.gateData g).gate_children_)
    (hvc : d.variable_children_ = (s.gateData g).variable_children_)
    (hcc : d.constant_children_ = (s.gateData g).constant_children_)
    (hInv : Inv s) : Inv (s.updGate g d) := by
  constructor
  · intro g'
    by_cases hg : g' = g
    · subst hg
      rw [updGate_gateData_self]
      obtain ⟨w0, w1, w2, w3, w4, w5⟩ := hInv.1 g'
      rw [IGate.wf, hch, hgc, hvc, hcc]
      exact ⟨w0, w1, w2, w3, w4, w5⟩
    · rw [updGate_gateData_ne _ _ _ hg]
      exact hInv.1 g'
  · intro g' v
    rw [updGate_parents]
    by_cases hg : g' = g
    · subst hg
      rw [updGate_gateData_self, hch]
      exact hInv.2 g' v
    · rw [updGate_gateData_ne _ _ _ hg]
      exact hInv.2 g' v

theorem Inv_Nullify (s : GraphState) (g : Nat) (hInv : Inv s) :
    Inv (IGate.Nullify s g) :=
  Inv_EraseAllChildren _ g (Inv_updGate_same_sets s g _ rfl rfl rfl rfl hInv)

theorem Inv_MakeUnity (s : GraphState) (g : Nat) (hInv : Inv s) :
    Inv (IGate.MakeUnity s g) :=
  Inv_EraseAllChildren _ g (Inv_updGate_same_sets s g _ rfl rfl rfl rfl hInv)

theorem Inv_ProcessDuplicateChild (s : GraphState) (g : Nat) (child : Int)
    (hInv : Inv s) : Inv (IGate.ProcessDuplicateChild s g child).2 := by
  cases htype : (s.gateData g).type_ <;>
    simp only [IGate.ProcessDuplicateChild, htype] <;>
      first
        | exact hInv
        | exact Inv_Nullify s g hInv
        | exact Inv_updGate_same_sets s g _ rfl rfl rfl rfl hInv

theorem Inv_ProcessComplementChild (s : GraphState) (g : Nat) (child : Int)
    (hInv : Inv s) (hneg : -child ∈ (s.gateData g).children_) :
    Inv (IGate.ProcessComplementChild s g child).2 := by
  cases htype : (s.gateData g).type_ <;>
    simp only [IGate.ProcessComplementChild, htype] <;>
      first
        | exact Inv_Nullify s g hInv
        | exact Inv_MakeUnity s g hInv
        | exact Inv_updGate_same_sets _ g _ rfl rfl rfl rfl (Inv_EraseChild s g _ hInv hneg)

/-- Inv preservation by any of the `IGate::AddChild` overloads. -/
theorem Inv_AddChild (s : GraphState) (g : Nat) (child : Int) (k : ChildKind)
    (hInv : Inv s) (h0 : child ≠ 0) :
    Inv (IGate.AddChild s g child k).2 := by
  simp only [IGate.AddChild]
  split
  · exact hInv
  · split
    · exact Inv_ProcessDuplicateChild s g child hInv
    · next hdup =>
        split
        · next hneg => exact Inv_ProcessComplementChild s g child hInv hneg
        · next hneg =>
            cases k <;> dsimp only
            · exact Inv_insertChildRecord s g child _ hInv h0 hdup hneg
            · exact Inv_insertChildRecord s g child _ hInv h0 hdup hneg
            · generalize (if child < 0 then !s.constValue child.natAbs
                else s.constValue child.natAbs) = v
              split
              · exact Inv_Nullify s g hInv
              · split
                · exact Inv_MakeUnity s g hInv
                · exact Inv_insertChildRecord s g child ChildKind.constantChild hInv h0 hdup hneg

theorem Nullify_gateData_ne' (s : GraphState) (g : Nat) {g' : Nat} (h : g' ≠ g) :
    (IGate.Nullify s g).gateData g' = s.gateData g' :=
  Nullify_gateData_ne s g h

/-- A gate other than the target of `AddChild` keeps its data. -/
theorem AddChild_gateData_ne (s : GraphState) (g : Nat) (child : Int) (k : ChildKind)
    {g' : Nat} (h : g' ≠ g) :
    (IGate.AddChild s g child k).2.gateData g' = s.gateData g' := by
  simp only [IGate.AddChild]
  split
  · rfl
  · split
    · cases htype : (s.gateData g).type_ <;>
        simp only [IGate.ProcessDuplicateChild, htype] <;>
          first
            | rfl
            | exact Nullify_gateData_ne s g h
            | exact updGate_gateData_ne _ _ _ h
    · split
      · cases htype : (s.gateData g).type_ <;>
          simp only [IGate.ProcessComplementChild, htype] <;>
            first
              | exact Nullify_gateData_ne s g h
              | exact MakeUnity_gateData_ne s g h
              | (rw [updGate_gateData_ne _ _ _ h]; exact EraseChild_gateData_ne s g _ h)
      · cases k <;> dsimp only
        · exact insertChildRecord_gateData_ne s g child _ h
        · exact insertChildRecord_gateData_ne s g child _ h
        · generalize (if child < 0 then !s.constValue child.natAbs
            else s.constValue child.natAbs) = v
          split
          · exact Nullify_gateData_ne s g h
          · split
            · exact MakeUnity_gateData_ne s g h
            · exact insertChildRecord_gateData_ne s g child ChildKind.constantChild h

/-- Inv preservation by `IGate::TransferChild` (moving `child` from `g` to
a distinct `recipient`). -/
theorem Inv_TransferChild (s : GraphState) (g : Nat) (child : Int) (recipient : Nat)
    (hInv : Inv s) (hmem : child ∈ (s.gateData g).children_) (hgr : g ≠ recipient) :
    Inv (IGate.TransferChild s g child recipient).2 := by
  have h0 : child ≠ 0 := fun h => (hInv.1 g).1 (h ▸ hmem)
  simp only [IGate.TransferChild]
  refine Inv_EraseChild _ g child (Inv_AddChild s recipient child _ hInv h0) ?_
  rw [AddChild_gateData_ne s recipient child _ hgr]
  exact hmem

/-- Inv preservation by `IGate::ShareChild` (aliasing `child` of `g` into
`recipient`). -/
theorem Inv_ShareChild (s : GraphState) (g : Nat) (child : Int) (recipient : Nat)
    (hInv : Inv s) (hmem : child ∈ (s.gateData g).children_) :
    Inv (IGate.ShareChild s g child recipient).2 := by
  have h0 : child ≠ 0 := fun h => (hInv.1 g).1 (h ▸ hmem)
  exact Inv_AddChild s recipient child _ hInv h0

theorem Inv_foldl_AddChild (g : Nat) (src : IGate) (l : List Int) :
    ∀ (acc : Bool × GraphState), Inv acc.2 → (∀ c ∈ l, c ≠ (0 : Int)) →
    Inv ((l.foldl
      (fun acc c =>
        let r := IGate.AddChild acc.2 g c (IGate.childKindOf src c)
        (acc.1 || r.1, r.2)) acc).2) := by
  induction l with
  | nil =>
      intro acc h _
      exact h
  | cons c rest ih =>
      intro acc h hz
      simp only [List.foldl_cons]
      exact ih _ (Inv_AddChild _ g c _ h (hz c (by simp)))
        (fun c' hc' => hz c' (by simp [hc']))

/-- Inv preservation by `IGate::JoinGate` (coalescing the child gate
`child_gate`, present in `g`'s children, into `g`). -/
theorem Inv_JoinGate (s : GraphState) (g : Nat) (child_gate : Nat)
    (hInv : Inv s) (hmem : (child_gate : Int) ∈ (s.gateData g).children_) :
    Inv (IGate.JoinGate s g child_gate).2 := by
  simp only [IGate.JoinGate]
  refine Inv_foldl_AddChild g _ _ _ (Inv_EraseChild s g _ hInv hmem) ?_
  intro c hc
  rw [Finset.mem_sort] at hc
  exact fun h => (hInv.1 child_gate).1 (h ▸ hc)

/-! The constant-state invariant of claim C2: a gate whose state is not
normal has no children. -/

/-- Claim C2's invariant: `state ≠ Normal` implies an empty children set. -/
def constStateEmpty (s : GraphState) : Prop :=
  ∀ g : Nat, (s.gateData g).state_ ≠ kNormalState → (s.gateData g).children_ = ∅

theorem constStateEmpty_init : constStateEmpty GraphState.init := by
  intro g _
  rfl

theorem constStateEmpty_EraseChild (s : GraphState) (g : Nat) (child : Int)
    (h : constStateEmpty s) : constStateEmpty (IGate.EraseChild s g child) := by
  intro g' hst
  by_cases hg : g' = g
  · subst hg
    rw [EraseChild_children_self]
    rw [EraseChild_state] at hst
    rw [h g' hst]
    exact Finset.erase_empty child
  · rw [EraseChild_gateData_ne _ _ _ hg] at hst ⊢
    exact h g' hst

theorem constStateEmpty_EraseAllChildren (s : GraphState) (g : Nat)
    (h : constStateEmpty s) : constStateEmpty (IGate.EraseAllChildren s g) := by
  intro g' hst
  by_cases hg : g' = g
  · subst hg
    exact EraseAllChildren_children_self s g'
  · rw [EraseAllChildren_gateData_ne _ _ hg] at hst ⊢
    exact h g' hst

theorem constStateEmpty_Nullify (s : GraphState) (g : Nat)
    (h : constStateEmpty s) : constStateEmpty (IGate.Nullify s g) := by
  intro g' hst
  by_cases hg : g' = g
  · subst hg
    exact Nullify_children s g'
  · rw [Nullify_gateData_ne s g hg] at hst ⊢
    exact h g' hst

theorem constStateEmpty_MakeUnity (s : GraphState) (g : Nat)
    (h : constStateEmpty s) : constStateEmpty (IGate.MakeUnity s g) := by
  intro g' hst
  by_cases hg : g' = g
  · subst hg
    exact MakeUnity_children s g'
  · rw [MakeUnity_gateData_ne s g hg] at hst ⊢
    exact h g' hst

theorem constStateEmpty_updGate_same (s : GraphState) (g : Nat) (d : IGate)
    (hst : d.state_ = (s.gateData g).state_)
    (hch : d.children_ = (s.gateData g).children_)
    (h : constStateEmpty s) : constStateEmpty (s.updGate g d) := by
  intro g' hs
  by_cases hg : g' = g
  · subst hg
    rw [updGate_gateData_self] at hs ⊢
    rw [hst] at hs
    rw [hch]
    exact h g' hs
  · rw [updGate_gateData_ne _ _ _ hg] at hs ⊢
    exact h g' hs

theorem constStateEmpty_insertChildRecord (s : GraphState) (g : Nat) (child : Int)
    (k : ChildKind) (hnorm : (s.gateData g).state_ = kNormalState)
    (h : constStateEmpty s) : constStateEmpty (IGate.insertChildRecord s g child k) := by
  intro g' hst
  by_cases hg : g' = g
  · subst hg
    rw [insertChildRecord_state] at hst
    exact absurd hnorm hst
  · rw [insertChildRecord_gateData_ne s g child k hg] at hst ⊢
    exact h g' hst

theorem constStateEmpty_AddChild (s : GraphState) (g : Nat) (child : Int) (k : ChildKind)
    (h : constStateEmpty s) : constStateEmpty (IGate.AddChild s g child k).2 := by
  simp only [IGate.AddChild]
  split
  · exact h
  · next hnorm =>
      rw [not_not] at hnorm
      split
      · cases htype : (s.gateData g).type_ <;>
          simp only [IGate.ProcessDuplicateChild, htype] <;>
            first
              | exact h
              | exact constStateEmpty_Nullify s g h
              | exact constStateEmpty_updGate_same s g _ rfl rfl h
      · split
        · cases htype : (s.gateData g).type_ <;>
            simp only [IGate.ProcessComplementChild, htype] <;>
              first
                | exact constStateEmpty_Nullify s g h
                | exact constStateEmpty_MakeUnity s g h
                | exact constStateEmpty_updGate_same _ g _ rfl rfl
                    (constStateEmpty_EraseChild s g _ h)
        · cases k <;> dsimp only
          · exact constStateEmpty_insertChildRecord s g child _ hnorm h
          · exact constStateEmpty_insertChildRecord s g child _ hnorm h
          · generalize (if child < 0 then !s.constValue child.natAbs
              else s.constValue child.natAbs) = v
            split
            · exact constStateEmpty_Nullify s g h
            · split
              · exact constStateEmpty_MakeUnity s g h
              · exact constStateEmpty_insertChildRecord s g child ChildKind.constantChild hnorm h

theorem constStateEmpty_TransferChild (s : GraphState) (g : Nat) (child : Int)
    (recipient : Nat) (h : constStateEmpty s) :
    constStateEmpty (IGate.TransferChild s g child recipient).2 := by
  simp only [IGate.TransferChild]
  exact constStateEmpty_EraseChild _ g child (constStateEmpty_AddChild s recipient child _ h)

theorem constStateEmpty_ShareChild (s : GraphState) (g : Nat) (child : Int)
    (recipient : Nat) (h : constStateEmpty s) :
    constStateEmpty (IGate.ShareChild s g child recipient).2 :=
  constStateEmpty_AddChild s recipient child _ h

theorem constStateEmpty_foldl_AddChild (g : Nat) (src : IGate) (l : List Int) :
    ∀ (acc : Bool × GraphState), constStateEmpty acc.2 →
    constStateEmpty ((l.foldl
      (fun acc c =>
        let r := IGate.AddChild acc.2 g c (IGate.childKindOf src c)
        (acc.1 || r.1, r.2)) acc).2) := by
  induction l with
  | nil =>
      intro acc h
      exact h
  | cons c rest ih =>
      intro acc h
      simp only [List.foldl_cons]
      exact ih _ (constStateEmpty_AddChild _ g c _ h)

theorem constStateEmpty_JoinGate (s : GraphState) (g : Nat) (child_gate : Nat)
    (h : constStateEmpty s) : constStateEmpty (IGate.JoinGate s g child_gate).2 := by
  simp only [IGate.JoinGate]
  exact constStateEmpty_foldl_AddChild g _ _ _ (constStateEmpty_EraseChild s g _ h)

theorem wf_exactlyOne (d : IGate) (hwf : d.wf) (c : Int) :
    c ∈ d.children_ ↔ exactlyOneKindKey d c := by
  obtain ⟨w0, w1, w2, w3, w4, w5⟩ := hwf
  rw [w2 c]
  have h3 := w3 c
  have h4 := w4 c
  have h5 := w5 c
  unfold exactlyOneKindKey
  tauto

/-- The consistency property of claim C1 (with the kind maps keyed by the
signed child index): a node occurs among a gate's children exactly when
the gate is among the node's parents, and a signed child index is a key of
exactly one of the three kind maps. -/
def childParentConsistent (s : GraphState) : Prop :=
  ∀ g v : Nat,
    (((v : Int) ∈ (s.gateData g).children_ ∨ -(v : Int) ∈ (s.gateData g).children_) ↔
       g ∈ s.parents_ v) ∧
    ∀ c : Int, c.natAbs = v →
      (c ∈ (s.gateData g).children_ ↔ exactlyOneKindKey (s.gateData g) c)

theorem Inv_childParentConsistent (s : GraphState) (hInv : Inv s) :
    childParentConsistent s := by
  intro g v
  exact ⟨hInv.2 g v, fun c _ => wf_exactlyOne _ (hInv.1 g) c⟩

/-- The graph state obtained by adding the complemented variable `-2` to
gate `1` of the initial graph: the child is recorded under its signed
index. -/
def negChildState : GraphState :=
  (IGate.AddChild GraphState.init 1 (-2) ChildKind.variableChild).2

/-- Claim C1 is refuted as stated: in a reachable graph state with a
complemented child, the gate is a key of the child node's parents map and
the signed index `-2` is in the children set, yet the unsigned index `2`
is a key of none of the three kind maps — the maps are keyed by the
signed index (see `IGate::EraseChild`). -/
theorem claim1_counterexample :
    ((-2 : Int) ∈ ((negChildState).gateData 1).children_ ∧
      1 ∈ (negChildState).parents_ 2) ∧
    ¬ ((((2 : Int) ∈ ((negChildState).gateData 1).gate_children_ ∨
         (2 : Int) ∈ ((negChildState).gateData 1).variable_children_ ∨
         (2 : Int) ∈ ((negChildState).gateData 1).constant_children_)) ↔
        1 ∈ (negChildState).parents_ 2) := by
  constructor
  · constructor <;> decide
  · decide

/-- Claim C1, amended: with the kind maps keyed by the signed index, the
child/parent equivalence (membership in `children_`, equivalently being a
key of exactly one kind map, iff the gate being a key of the node's
parents) holds in the initial graph and is preserved by every
child-mutating operation: AddChild, EraseChild, EraseAllChildren,
TransferChild, ShareChild and JoinGate. -/
theorem claim1_theorem :
    Inv GraphState.init ∧
    (∀ s : GraphState, Inv s → childParentConsistent s) ∧
    (∀ (s : GraphState) (g : Nat) (child : Int) (k : ChildKind),
      Inv s → child ≠ 0 → Inv (IGate.AddChild s g child k).2) ∧
    (∀ (s : GraphState) (g : Nat) (child : Int),
      Inv s → child ∈ (s.gateData g).children_ → Inv (IGate.EraseChild s g child)) ∧
    (∀ (s : GraphState) (g : Nat), Inv s → Inv (IGate.EraseAllChildren s g)) ∧
    (∀ (s : GraphState) (g : Nat) (child : Int) (recipient : Nat),
      Inv s → child ∈ (s.gateData g).children_ → g ≠ recipient →
      Inv (IGate.TransferChild s g child recipient).2) ∧
    (∀ (s : GraphState) (g : Nat) (child : Int) (recipient : Nat),
      Inv s → child ∈ (s.gateData g).children_ →
      Inv (IGate.ShareChild s g child recipient).2) ∧
    (∀ (s : GraphState) (g : Nat) (child_gate : Nat),
      Inv s → (child_gate : Int) ∈ (s.gateData g).children_ →
      Inv (IGate.JoinGate s g child_gate).2) :=
  ⟨Inv_init,
   Inv_childParentConsistent,
   fun s g child k hInv h0 => Inv_AddChild s g child k hInv h0,
   fun s g child hInv hmem => Inv_EraseChild s g child hInv hmem,
   fun s g hInv => Inv_EraseAllChildren s g hInv,
   fun s g child r hInv hmem hgr => Inv_TransferChild s g child r hInv hmem hgr,
   fun s g child r hInv hmem => Inv_ShareChild s g child r hInv hmem,
   fun s g cg hInv hmem => Inv_JoinGate s g cg hInv hmem⟩

/-- Witness for the amended claim C1 at concrete inputs: the invariant
holds after adding child `-2` to gate `1` of the initial graph and still
holds after erasing it again. -/
theorem claim1_witness :
    Inv negChildState ∧
    childParentConsistent negChildState ∧
    Inv (IGate.EraseChild negChildState 1 (-2)) := by
  obtain ⟨hinit, hcons, hadd, herase, -, -, -, -⟩ := claim1_theorem
  have h1 : Inv negChildState :=
    hadd GraphState.init 1 (-2) ChildKind.variableChild hinit (by decide)
  exact ⟨h1, hcons _ h1, herase negChildState 1 (-2) h1 (by decide)⟩

/-- Claim C2: `Nullify` and `MakeUnity`, called on a gate in the normal
state, leave the gate in the null resp. unity state with no children, and
the invariant "a gate in a non-normal state has no children" holds
initially and is preserved by every child-mutating operation. -/
theorem claim2_theorem :
    (∀ (s : GraphState) (g : Nat), (s.gateData g).state_ = kNormalState →
      ((IGate.Nullify s g).gateData g).state_ = kNullState ∧
      ((IGate.Nullify s g).gateData g).children_ = ∅ ∧
      ((IGate.MakeUnity s g).gateData g).state_ = kUnityState ∧
      ((IGate.MakeUnity s g).gateData g).children_ = ∅) ∧
    constStateEmpty GraphState.init ∧
    (∀ (s : GraphState) (g : Nat) (child : Int) (k : ChildKind),
      constStateEmpty s → constStateEmpty (IGate.AddChild s g child k).2) ∧
    (∀ (s : GraphState) (g : Nat) (child : Int),
      constStateEmpty s → constStateEmpty (IGate.EraseChild s g child)) ∧
    (∀ (s : GraphState) (g : Nat),
      constStateEmpty s → constStateEmpty (IGate.EraseAllChildren s g)) ∧
    (∀ (s : GraphState) (g : Nat) (child : Int) (recipient : Nat),
      constStateEmpty s → constStateEmpty (IGate.TransferChild s g child recipient).2) ∧
    (∀ (s : GraphState) (g : Nat) (child : Int) (recipient : Nat),
      constStateEmpty s → constStateEmpty (IGate.ShareChild s g child recipient).2) ∧
    (∀ (s : GraphState) (g : Nat) (child_gate : Nat),
      constStateEmpty s → constStateEmpty (IGate.JoinGate s g child_gate).2) ∧
    (∀ (s : GraphState) (g : Nat),
      constStateEmpty s → constStateEmpty (IGate.Nullify s g)) ∧
    (∀ (s : GraphState) (g : Nat),
      constStateEmpty s → constStateEmpty (IGate.MakeUnity s g)) :=
  ⟨fun s g _ =>
    ⟨Nullify_state s g, Nullify_children s g, MakeUnity_state s g, MakeUnity_children s g⟩,
   constStateEmpty_init,
   fun s g child k h => constStateEmpty_AddChild s g child k h,
   fun s g child h => constStateEmpty_EraseChild s g child h,
   fun s g h => constStateEmpty_EraseAllChildren s g h,
   fun s g child r h => constStateEmpty_TransferChild s g child r h,
   fun s g child r h => constStateEmpty_ShareChild s g child r h,
   fun s g cg h => constStateEmpty_JoinGate s g cg h,
   fun s g h => constStateEmpty_Nullify s g h,
   fun s g h => constStateEmpty_MakeUnity s g h⟩

/-- Witness for claim C2 at a concrete input: nullifying gate `1` of the
initial graph (whose state is normal) yields the null state with no
children, and the constant-state invariant carries over. -/
theorem claim2_witness :
    ((IGate.Nullify GraphState.init 1).gateData 1).state_ = kNullState ∧
    ((IGate.Nullify GraphState.init 1).gateData 1).children_ = ∅ ∧
    constStateEmpty (IGate.Nullify GraphState.init 1) := by
  obtain ⟨hpost, hinit, -, -, -, -, -, -, hnul, -⟩ := claim2_theorem
  obtain ⟨h1, h2, -, -⟩ := hpost GraphState.init 1 (by decide)
  exact ⟨h1, h2, hnul GraphState.init 1 hinit⟩

/-! ### Claim C3: the Boolean returned by AddChild -/

/-- The added child is the complement of an existing child and the gate's
logic collapses it to a constant (every type except ATLEAST, which is
rewritten instead). -/
def complementCollapse (s : GraphState) (g : Nat) (child : Int) : Prop :=
  -child ∈ (s.gateData g).children_ ∧ child ∉ (s.gateData g).children_ ∧
  (s.gateData g).type_ ≠ kAtleastGate

/-- The effective Boolean value of a constant child (a negative index
complements the constant's value). -/
def effectiveConstValue (s : GraphState) (child : Int) : Bool :=
  if child < 0 then !(s.constValue child.natAbs) else s.constValue child.natAbs

/-- The added child is a fresh constant whose effective value absorbs the
gate (nullifies or unifies it). -/
def absorbingConstant (s : GraphState) (g : Nat) (child : Int) (k : ChildKind) : Prop :=
  k = ChildKind.constantChild ∧
  child ∉ (s.gateData g).children_ ∧ -child ∉ (s.gateData g).children_ ∧
  (constantNullifies (s.gateData g).type_ (effectiveConstValue s child) = true ∨
   constantUnifies (s.gateData g).type_ (effectiveConstValue s child) = true)

theorem ProcessDuplicateChild_fst (s : GraphState) (g : Nat) (child : Int) :
    (IGate.ProcessDuplicateChild s g child).1 = false := by
  cases htype : (s.gateData g).type_ <;>
    simp only [IGate.ProcessDuplicateChild, htype]

/-- Claim C3: under the precondition that the gate is in the normal state,
any `AddChild` overload returns true exactly when the gate's state changed
from normal to a constant state because the added child was a complement
of an existing child (on a collapsing gate type) or an absorbing constant;
in particular the call returns false whenever the final state is normal. -/
theorem claim3_theorem (s : GraphState) (g : Nat) (child : Int) (k : ChildKind)
    (hn : (s.gateData g).state_ = kNormalState) :
    ((IGate.AddChild s g child k).1 = true ↔
      (((IGate.AddChild s g child k).2.gateData g).state_ ≠ kNormalState ∧
       (complementCollapse s g child ∨ absorbingConstant s g child k))) ∧
    (((IGate.AddChild s g child k).2.gateData g).state_ = kNormalState →
      (IGate.AddChild s g child k).1 = false) := by
  have main : (IGate.AddChild s g child k).1 = true ↔
      (((IGate.AddChild s g child k).2.gateData g).state_ ≠ kNormalState ∧
       (complementCollapse s g child ∨ absorbingConstant s g child k)) := by
    simp only [IGate.AddChild]
    rw [if_neg (by simp [hn])]
    by_cases hdup : child ∈ (s.gateData g).children_
    · rw [if_pos hdup]
      constructor
      · intro h
        rw [ProcessDuplicateChild_fst] at h
        simp at h
      · rintro ⟨-, (⟨-, hnc, -⟩ | ⟨-, hnc, -, -⟩)⟩ <;> exact absurd hdup hnc
    · rw [if_neg hdup]
      by_cases hcomp : -child ∈ (s.gateData g).children_
      · rw [if_pos hcomp]
        cases htype : (s.gateData g).type_ <;>
          simp only [IGate.ProcessComplementChild, htype]
        · exact ⟨fun _ => ⟨by rw [Nullify_state]; decide,
            Or.inl ⟨hcomp, hdup, by rw [htype]; decide⟩⟩, fun _ => by trivial⟩
        · exact ⟨fun _ => ⟨by rw [MakeUnity_state]; decide,
            Or.inl ⟨hcomp, hdup, by rw [htype]; decide⟩⟩, fun _ => by trivial⟩
        · constructor
          · intro h
            simp at h
          · rintro ⟨hne, -⟩
            exfalso
            apply hne
            rw [updGate_gateData_self]
            show ((IGate.EraseChild s g (-child)).gateData g).state_ = kNormalState
            rw [EraseChild_state]
            exact hn
        · exact ⟨fun _ => ⟨by rw [MakeUnity_state]; decide,
            Or.inl ⟨hcomp, hdup, by rw [htype]; decide⟩⟩, fun _ => by trivial⟩
        · exact ⟨fun _ => ⟨by rw [MakeUnity_state]; decide,
            Or.inl ⟨hcomp, hdup, by rw [htype]; decide⟩⟩, fun _ => by trivial⟩
        · exact ⟨fun _ => ⟨by rw [MakeUnity_state]; decide,
            Or.inl ⟨hcomp, hdup, by rw [htype]; decide⟩⟩, fun _ => by trivial⟩
        · exact ⟨fun _ => ⟨by rw [Nullify_state]; decide,
            Or.inl ⟨hcomp, hdup, by rw [htype]; decide⟩⟩, fun _ => by trivial⟩
        · exact ⟨fun _ => ⟨by rw [MakeUnity_state]; decide,
            Or.inl ⟨hcomp, hdup, by rw [htype]; decide⟩⟩, fun _ => by trivial⟩
      · rw [if_neg hcomp]
        cases k <;> dsimp only
        · constructor
          · intro h
            simp at h
          · rintro ⟨hne, (⟨hc, -, -⟩ | ⟨hk, -, -, -⟩)⟩
            · exact absurd hc hcomp
            · exact absurd hk (by decide)
        · constructor
          · intro h
            simp at h
          · rintro ⟨hne, (⟨hc, -, -⟩ | ⟨hk, -, -, -⟩)⟩
            · exact absurd hc hcomp
            · exact absurd hk (by decide)
        · rw [show (if child < 0 then !s.constValue child.natAbs
            else s.constValue child.natAbs) = effectiveConstValue s child from rfl]
          split
          · next habs =>
              exact ⟨fun _ => ⟨by rw [Nullify_state]; decide,
                Or.inr ⟨rfl, hdup, hcomp, Or.inl habs⟩⟩, fun _ => by trivial⟩
          · next habs1 =>
              split
              · next habs2 =>
                  exact ⟨fun _ => ⟨by rw [MakeUnity_state]; decide,
                    Or.inr ⟨rfl, hdup, hcomp, Or.inr habs2⟩⟩, fun _ => by trivial⟩
              · next habs2 =>
                  constructor
                  · intro h
                    simp at h
                  · rintro ⟨hne, (⟨hc, -, -⟩ | ⟨-, -, -, (h | h)⟩)⟩
                    · exact absurd hc hcomp
                    · exact absurd h habs1
                    · exact absurd h habs2
  refine ⟨main, fun hfin => ?_⟩
  cases hb : (IGate.AddChild s g child k).1
  · rfl
  · exact absurd hfin (main.mp hb).1

/-- The graph state with the (positive) variable `2` as the only child of
gate `1` of the initial graph. -/
def varChildState : GraphState :=
  (IGate.AddChild GraphState.init 1 2 ChildKind.variableChild).2

/-- Witness for claim C3 at a concrete input: adding `-2` to a normal OR
gate that already has child `2` collapses the gate (unity) and the call
reports it. -/
theorem claim3_witness :
    (varChildState.gateData 1).state_ = kNormalState ∧
    ((IGate.AddChild varChildState 1 (-2) ChildKind.variableChild).1 = true ↔
      (((IGate.AddChild varChildState 1 (-2)
          ChildKind.variableChild).2.gateData 1).state_ ≠ kNormalState ∧
       (complementCollapse varChildState 1 (-2) ∨
        absorbingConstant varChildState 1 (-2) ChildKind.variableChild))) :=
  ⟨by decide,
   (claim3_theorem varChildState 1 (-2) ChildKind.variableChild (by decide)).1⟩

/-! ### The MOCUS driver of `mocus.cc` (claims C4, C5, C10)

`mocus.cc` is complete in the excerpt, but the `zbdd::CutSetContainer` it
drives is not.  The container is modelled from the spec at the level of
detail the claims need: the set of gate placeholder literals it currently
holds, together with a chronological trace of the operations applied to
it.  The preprocessed graph is in negation normal form, so gate arguments
appear positively and a gate's argument list is a set of positive gate
indices. -/

/-- The view of the preprocessed Boolean graph used by MOCUS: every gate's
gate arguments (`IGate::gate_args()`, positive indices in NNF), its module
flag, the graph's coherence flag, and a rank function witnessing
acyclicity (arguments have strictly smaller rank). -/
structure ModGraph where
  args : Nat → Finset Nat
  isModule : Nat → Bool
  coherent : Bool
  rank : Nat → Nat
  rank_lt : ∀ g a, a ∈ args g → rank a < rank g
  args_pos : ∀ g a, a ∈ args g → 0 < a

/-- The total expansion cost of a gate: one for its own expansion plus the
cost of recursively expanding its non-module gate arguments.  Well defined
because the graph is acyclic. -/
def weight (G : ModGraph) (g : Nat) : Nat :=
  1 + ∑ a in ((G.args g).filter (fun a => G.isModule a = false)).attach, weight G a.1
termination_by G.rank g
decreasing_by
  exact G.rank_lt g a.1 (Finset.mem_of_mem_filter _ a.2)

theorem weight_eq (G : ModGraph) (g : Nat) :
    weight G g =
      1 + ∑ a in (G.args g).filter (fun a => G.isModule a = false), weight G a := by
  rw [weight, Finset.sum_attach]

theorem weight_pos (G : ModGraph) (g : Nat) : 0 < weight G g := by
  rw [weight_eq]
  omega

/-- Operations the MOCUS driver performs on the cut-set container, in the
order recorded by the trace. -/
inductive COp
  | expand (g : Nat)
  | minimizeCuts
  | eliminateComplements
  | joinModule (m : Nat)
  | eliminateConstantModules
deriving DecidableEq, Repr

/-- Modelled from the spec: the `zbdd::CutSetContainer`, abstracted to the
set of gate placeholder literals currently present in its cut sets plus
the chronological trace of container operations. -/
structure CutSetContainer where
  lits : Finset Nat
  trace : List COp
deriving DecidableEq

/-- Modelled from the spec: `CutSetContainer::GetNextGate` pops the next
non-module gate placeholder still present (here the smallest), or 0 when
none remains. -/
def GetNextGate (G : ModGraph) (c : CutSetContainer) : Nat :=
  let nm := c.lits.filter (fun i => G.isModule i = false)
  if h : nm.Nonempty then nm.min' h else 0

/-- Modelled from the spec: one iteration of the expansion loop on the
container — `ExtractIntermediateCutSets(g)` removes the placeholder `g`
and `Merge (ExpandGate (ConvertGate g) …)` substitutes `g`'s conversion,
introducing the placeholders of `g`'s own gate arguments. -/
def expandStep (G : ModGraph) (c : CutSetContainer) (g : Nat) : CutSetContainer :=
  { lits := (c.lits.erase g) ∪ G.args g
    trace := c.trace ++ [COp.expand g] }

/-- The termination measure of the expansion loop: the total expansion
cost of the non-module placeholders present. -/
def nmWeight (G : ModGraph) (c : CutSetContainer) : Nat :=
  ∑ i in c.lits.filter (fun i => G.isModule i = false), weight G i

theorem GetNextGate_mem (G : ModGraph) (c : CutSetContainer)
    (h : GetNextGate G c ≠ 0) :
    GetNextGate G c ∈ c.lits ∧ G.isModule (GetNextGate G c) = false := by
  rw [GetNextGate] at h ⊢
  split at h
  · next hne =>
      split
      · next hne' =>
          have := Finset.min'_mem _ hne'
          rw [Finset.mem_filter] at this
          exact ⟨this.1, this.2⟩
      · next hne' => exact absurd hne hne'
  · exact absurd rfl h

/-- Each expansion strictly decreases the measure: the expanded gate's
cost exceeds the total cost of the placeholders it introduces by at least
one. -/
theorem nmWeight_expandStep_lt (G : ModGraph) (c : CutSetContainer) (g : Nat)
    (hg : g ∈ c.lits) (hnm : G.isModule g = false) :
    nmWeight G (expandStep G c g) < nmWeight G c := by
  have hgf : g ∈ c.lits.filter (fun i => G.isModule i = false) :=
    Finset.mem_filter.mpr ⟨hg, hnm⟩
  have hA : ((c.lits.erase g) ∪ G.args g).filter (fun i => G.isModule i = false) =
      ((c.lits.filter (fun i => G.isModule i = false)).erase g) ∪
        (G.args g).filter (fun i => G.isModule i = false) := by
    rw [Finset.filter_union, Finset.filter_erase]
  have hle : ∑ i in ((c.lits.filter (fun i => G.isModule i = false)).erase g) ∪
        (G.args g).filter (fun i => G.isModule i = false), weight G i ≤
      (∑ i in (c.lits.filter (fun i => G.isModule i = false)).erase g, weight G i) +
      (∑ i in (G.args g).filter (fun i => G.isModule i = false), weight G i) := by
    have h : (∑ i in ((c.lits.filter (fun i => G.isModule i = false)).erase g) ∪
          (G.args g).filter (fun i => G.isModule i = false), weight G i) +
        (∑ i in ((c.lits.filter (fun i => G.isModule i = false)).erase g) ∩
          (G.args g).filter (fun i => G.isModule i = false), weight G i) =
        (∑ i in (c.lits.filter (fun i => G.isModule i = false)).erase g, weight G i) +
        (∑ i in (G.args g).filter (fun i => G.isModule i = false), weight G i) :=
      Finset.sum_union_inter
    omega
  have herase : (∑ i in (c.lits.filter (fun i => G.isModule i = false)).erase g, weight G i) +
      weight G g = ∑ i in c.lits.filter (fun i => G.isModule i = false), weight G i :=
    Finset.sum_erase_add _ _ hgf
  have hw : weight G g =
      1 + ∑ a in (G.args g).filter (fun a => G.isModule a = false), weight G a := weight_eq G g
  show (∑ i in ((c.lits.erase g) ∪ G.args g).filter (fun i => G.isModule i = false), weight G i) <
    ∑ i in c.lits.filter (fun i => G.isModule i = false), weight G i
  rw [hA]
  omega

/-- The gate-expansion loop of `Mocus::AnalyzeModule`: while
`GetNextGate` returns a non-zero gate, expand that gate into the container
and extend the local `gates` map with the expanded gate's gate arguments.
Terminates because each expansion strictly decreases `nmWeight`. -/
def mocusLoop (G : ModGraph) (gates : Finset Nat) (c : CutSetContainer) :
    Finset Nat × CutSetContainer :=
  if h : GetNextGate G c = 0 then (gates, c)
  else
    mocusLoop G (gates ∪ G.args (GetNextGate G c)) (expandStep G c (GetNextGate G c))
termination_by nmWeight G c
decreasing_by
  have hm := GetNextGate_mem G c h
  exact nmWeight_expandStep_lt G c _ hm.1 hm.2

/-- After the loop returns, `GetNextGate` reports no gate left. -/
theorem mocusLoop_getNext_zero (G : ModGraph) (gates : Finset Nat) (c : CutSetContainer) :
    GetNextGate G (mocusLoop G gates c).2 = 0 := by
  induction gates, c using mocusLoop.induct G with
  | case1 gates c h =>
      rw [mocusLoop]
      simp only [h, dite_true]
  | case2 gates c h ih =>
      rw [mocusLoop]
      simp only [h, dite_false]
      exact ih

/-- The loop only appends `expand` operations to the trace. -/
theorem mocusLoop_trace (G : ModGraph) (gates : Finset Nat) (c : CutSetContainer) :
    ∃ l : List COp, (mocusLoop G gates c).2.trace = c.trace ++ l ∧
      ∀ op ∈ l, ∃ i, op = COp.expand i := by
  induction gates, c using mocusLoop.induct G with
  | case1 gates c h =>
      rw [mocusLoop]
      simp only [h, dite_true]
      exact ⟨[], by simp, by simp⟩
  | case2 gates c h ih =>
      rw [mocusLoop]
      simp only [h, dite_false]
      obtain ⟨l, hl, hops⟩ := ih
      refine ⟨COp.expand (GetNextGate G c) :: l, ?_, ?_⟩
      · rw [hl]
        simp [expandStep]
      · intro op hop
        rcases List.mem_cons.mp hop with rfl | hop'
        · exact ⟨_, rfl⟩
        · exact hops op hop'

/-- The loop preserves the invariant that every literal in the container
is a key of the local gates map. -/
theorem mocusLoop_subset (G : ModGraph) (gates : Finset Nat) (c : CutSetContainer)
    (hsub : c.lits ⊆ gates) :
    (mocusLoop G gates c).2.lits ⊆ (mocusLoop G gates c).1 := by
  induction gates, c using mocusLoop.induct G with
  | case1 gates c h =>
      rw [mocusLoop]
      simp only [h, dite_true]
      exact hsub
  | case2 gates c h ih =>
      rw [mocusLoop]
      simp only [h, dite_false]
      apply ih
      intro i hi
      rw [expandStep] at hi
      simp only [Finset.mem_union] at hi ⊢
      rcases hi with hi | hi
      · exact Or.inl (hsub (Finset.mem_of_mem_erase hi))
      · exact Or.inr hi

/-- The loop preserves positivity of the literals. -/
theorem mocusLoop_pos (G : ModGraph) (gates : Finset Nat) (c : CutSetContainer)
    (hpos : ∀ i ∈ c.lits, 0 < i) :
    ∀ i ∈ (mocusLoop G gates c).2.lits, 0 < i := by
  induction gates, c using mocusLoop.induct G with
  | case1 gates c h =>
      rw [mocusLoop]
      simp only [h, dite_true]
      exact hpos
  | case2 gates c h ih =>
      rw [mocusLoop]
      simp only [h, dite_false]
      apply ih
      intro i hi
      rw [expandStep] at hi
      simp only [Finset.mem_union] at hi
      rcases hi with hi | hi
      · exact hpos i (Finset.mem_of_mem_erase hi)
      · exact G.args_pos _ i hi

/-- Once `GetNextGate` returns 0 on a container of positive literals, all
remaining literals are module placeholders. -/
theorem getNext_zero_modules (G : ModGraph) (c : CutSetContainer)
    (hpos : ∀ i ∈ c.lits, 0 < i) (hz : GetNextGate G c = 0) :
    ∀ i ∈ c.lits, G.isModule i = true := by
  intro i hi
  by_contra hmod
  have hif : i ∈ c.lits.filter (fun j => G.isModule j = false) :=
    Finset.mem_filter.mpr ⟨hi, by simpa using hmod⟩
  have hne : (c.lits.filter (fun j => G.isModule j = false)).Nonempty := ⟨i, hif⟩
  rw [GetNextGate] at hz
  simp only [hne, dite_true] at hz
  have hmem := Finset.min'_mem _ hne
  rw [hz] at hmem
  have := hpos 0 (Finset.mem_of_mem_filter _ hmem)
  omega

/-- Modelled from the spec: `CutSetContainer::Minimize` rewrites the cut
sets without touching which gate placeholders occur; only the trace
records it. -/
def minimizeStep (c : CutSetContainer) : CutSetContainer :=
  { c with trace := c.trace ++ [COp.minimizeCuts] }

/-- Modelled from the spec: `CutSetContainer::EliminateComplements` drops
cut sets containing both a literal and its complement; gate placeholders
are unaffected. -/
def eliminateComplementsStep (c : CutSetContainer) : CutSetContainer :=
  { c with trace := c.trace ++ [COp.eliminateComplements] }

/-- Modelled from the spec: `CutSetContainer::EliminateConstantModules`. -/
def eliminateConstantModulesStep (c : CutSetContainer) : CutSetContainer :=
  { c with trace := c.trace ++ [COp.eliminateConstantModules] }

/-- Modelled from the spec: `CutSetContainer::GatherModules` returns the
module placeholders still present (in ascending order). -/
def GatherModules (G : ModGraph) (c : CutSetContainer) : List Nat :=
  (c.lits.filter (fun i => G.isModule i = true)).sort (· ≤ ·)

/-- Modelled from the spec: `CutSetContainer::JoinModule` substitutes the
module placeholder `m` by the recursively analyzed sub-container. -/
def joinModuleStep (c : CutSetContainer) (m : Nat) (sub : CutSetContainer) :
    CutSetContainer :=
  { lits := (c.lits.erase m) ∪ sub.lits
    trace := c.trace ++ [COp.joinModule m] }

/-- The body of `Mocus::AnalyzeModule` for one invocation, with the
recursive analyses of the gathered modules supplied by `sub`: seed the
container with the module gate's conversion (its gate arguments as
placeholders), run the expansion loop, minimize, eliminate complements
and minimize again when the graph is non-coherent, join each gathered
module, eliminate constant modules and minimize one final time. -/
def corePipeline (G : ModGraph) (g : Nat) (sub : Nat → CutSetContainer) :
    CutSetContainer :=
  let p := mocusLoop G (G.args g) { lits := G.args g, trace := [] }
  let c2 := minimizeStep p.2
  let c3 := if G.coherent then c2 else minimizeStep (eliminateComplementsStep c2)
  let c4 := (GatherModules G c3).foldl (fun c m => joinModuleStep c m (sub m)) c3
  minimizeStep (eliminateConstantModulesStep c4)

/-- `Mocus::AnalyzeModule` with the recursion depth driven by the gate's
rank: a gathered module is a descendant of `g`, so its rank is smaller and
the structural fuel never runs out. -/
def analyzeModuleF (G : ModGraph) : Nat → Nat → CutSetContainer
  | 0, g => corePipeline G g (fun _ => { lits := ∅, trace := [] })
  | fuel + 1, g => corePipeline G g (fun m => analyzeModuleF G fuel m)

/-- `Mocus::AnalyzeModule` on a module gate `g`. -/
def AnalyzeModule (G : ModGraph) (g : Nat) : CutSetContainer :=
  analyzeModuleF G (G.rank g) g

theorem foldl_joinModule_trace (sub : Nat → CutSetContainer) (ms : List Nat) :
    ∀ c : CutSetContainer,
      (ms.foldl (fun c m => joinModuleStep c m (sub m)) c).trace =
        c.trace ++ ms.map COp.joinModule := by
  induction ms with
  | nil =>
      intro c
      simp
  | cons m rest ih =>
      intro c
      simp only [List.foldl_cons, List.map_cons]
      rw [ih]
      simp [joinModuleStep]

theorem corePipeline_trace (G : ModGraph) (g : Nat) (sub : Nat → CutSetContainer) :
    ∃ (expandOps : List COp) (ms : List Nat),
      (∀ op ∈ expandOps, ∃ i, op = COp.expand i) ∧
      (corePipeline G g sub).trace =
        expandOps ++ [COp.minimizeCuts] ++
        (if G.coherent then [] else [COp.eliminateComplements, COp.minimizeCuts]) ++
        ms.map COp.joinModule ++
        [COp.eliminateConstantModules, COp.minimizeCuts] := by
  obtain ⟨l, hl, hops⟩ := mocusLoop_trace G (G.args g) { lits := G.args g, trace := [] }
  refine ⟨l, GatherModules G (if G.coherent
    then minimizeStep (mocusLoop G (G.args g) { lits := G.args g, trace := [] }).2
    else minimizeStep (eliminateComplementsStep
      (minimizeStep (mocusLoop G (G.args g) { lits := G.args g, trace := [] }).2))),
    hops, ?_⟩
  show (minimizeStep (eliminateConstantModulesStep _)).trace = _
  rw [minimizeStep, eliminateConstantModulesStep]
  simp only []
  by_cases hco : G.coherent
  · simp only [hco, if_true]
    rw [foldl_joinModule_trace]
    simp only [minimizeStep]
    rw [hl]
    simp
  · simp only [hco, if_false]
    rw [foldl_joinModule_trace]
    simp only [minimizeStep, eliminateComplementsStep]
    rw [hl]
    simp

/-- Claim C4: in every invocation of `Mocus::AnalyzeModule`, once the
expansion loop has terminated (`GetNextGate` returns 0 on the loop's final
container), `Minimize` is called; `EliminateComplements` followed by a
second `Minimize` is invoked exactly when the graph is non-coherent; the
module joins follow, and a final `Minimize` (after
`EliminateConstantModules`) closes the invocation. -/
theorem claim4_theorem (G : ModGraph) (g : Nat) :
    GetNextGate G (mocusLoop G (G.args g) { lits := G.args g, trace := [] }).2 = 0 ∧
    ∃ (expandOps : List COp) (ms : List Nat),
      (∀ op ∈ expandOps, ∃ i, op = COp.expand i) ∧
      (AnalyzeModule G g).trace =
        expandOps ++ [COp.minimizeCuts] ++
        (if G.coherent then [] else [COp.eliminateComplements, COp.minimizeCuts]) ++
        ms.map COp.joinModule ++
        [COp.eliminateConstantModules, COp.minimizeCuts] := by
  refine ⟨mocusLoop_getNext_zero G _ _, ?_⟩
  rw [AnalyzeModule]
  cases hr : G.rank g <;>
    simp only [analyzeModuleF] <;>
      exact corePipeline_trace G g _

/-- The number of non-module gate placeholders in the container. -/
def nmCount (G : ModGraph) (c : CutSetContainer) : Nat :=
  (c.lits.filter (fun i => G.isModule i = false)).card

/-- A concrete acyclic NNF graph: module gate 4 has the single gate
argument 1, and gate 1 fans out to the two leaf gates 2 and 3; no inner
gate is a module. -/
def Gex : ModGraph where
  args := fun g => if g = 4 then {1} else if g = 1 then {2, 3} else ∅
  isModule := fun g => g = 4
  coherent := true
  rank := fun g => if g = 4 then 2 else if g = 1 then 1 else 0
  rank_lt := by
    intro g a ha
    dsimp only at ha ⊢
    by_cases hg4 : g = 4
    · subst hg4
      rw [if_pos rfl] at ha
      rw [Finset.mem_singleton] at ha
      subst ha
      decide
    · by_cases hg1 : g = 1
      · subst hg1
        rw [if_neg (by decide), if_pos rfl] at ha
        have h23 : a = 2 ∨ a = 3 := by
          rcases Finset.mem_insert.mp ha with h | h
          · exact Or.inl h
          · exact Or.inr (Finset.mem_singleton.mp h)
        rcases h23 with rfl | rfl <;> decide
      · rw [if_neg hg4, if_neg hg1] at ha
        exact absurd ha (Finset.not_mem_empty a)
  args_pos := by
    intro g a ha
    dsimp only at ha
    by_cases hg4 : g = 4
    · subst hg4
      rw [if_pos rfl] at ha
      rw [Finset.mem_singleton] at ha
      subst ha
      decide
    · by_cases hg1 : g = 1
      · subst hg1
        rw [if_neg (by decide), if_pos rfl] at ha
        have h23 : a = 2 ∨ a = 3 := by
          rcases Finset.mem_insert.mp ha with h | h
          · exact Or.inl h
          · exact Or.inr (Finset.mem_singleton.mp h)
        rcases h23 with rfl | rfl <;> decide
      · rw [if_neg hg4, if_neg hg1] at ha
        exact absurd ha (Finset.not_mem_empty a)

/-- Claim C5 is refuted as stated: in the expansion loop for module gate 4
of `Gex` (container seeded with gate 4's conversion, the placeholder 1),
the first iteration expands gate 1 and the count of remaining non-module
gate placeholders grows from 1 to 2 — it does not strictly decrease. -/
theorem claim5_counterexample :
    GetNextGate Gex { lits := Gex.args 4, trace := [] } = 1 ∧
    nmCount Gex { lits := Gex.args 4, trace := [] } = 1 ∧
    nmCount Gex (expandStep Gex { lits := Gex.args 4, trace := [] }
      (GetNextGate Gex { lits := Gex.args 4, trace := [] })) = 2 ∧
    ¬ (nmCount Gex (expandStep Gex { lits := Gex.args 4, trace := [] }
         (GetNextGate Gex { lits := Gex.args 4, trace := [] })) <
       nmCount Gex { lits := Gex.args 4, trace := [] }) := by
  refine ⟨?_, ?_, ?_, ?_⟩ <;> decide

/-- Claim C5, amended: the expansion loop terminates, but the strictly
decreasing quantity is not the count of non-module placeholders (which can
grow on fan-out) — it is their total expansion weight, finite by
acyclicity.  Every iteration strictly decreases `nmWeight`, and the loop
ends in a container on which `GetNextGate` returns 0, i.e. (for positive
literals) one whose remaining placeholders are all modules. -/
theorem claim5_theorem (G : ModGraph) (gates : Finset Nat) (c : CutSetContainer)
    (hpos : ∀ i ∈ c.lits, 0 < i) :
    (GetNextGate G c ≠ 0 →
      nmWeight G (expandStep G c (GetNextGate G c)) < nmWeight G c) ∧
    GetNextGate G (mocusLoop G gates c).2 = 0 ∧
    (∀ i ∈ (mocusLoop G gates c).2.lits, G.isModule i = true) := by
  refine ⟨?_, mocusLoop_getNext_zero G gates c, ?_⟩
  · intro h
    have hm := GetNextGate_mem G c h
    exact nmWeight_expandStep_lt G c _ hm.1 hm.2
  · exact getNext_zero_modules G _ (mocusLoop_pos G gates c hpos)
      (mocusLoop_getNext_zero G gates c)

/-- Witness for the amended claim C5 on the concrete graph `Gex`. -/
theorem claim5_witness :
    (∀ i ∈ ({1} : Finset Nat), 0 < i) ∧
    (GetNextGate Gex { lits := {1}, trace := [] } ≠ 0 →
      nmWeight Gex (expandStep Gex { lits := {1}, trace := [] }
        (GetNextGate Gex { lits := {1}, trace := [] })) <
      nmWeight Gex { lits := {1}, trace := [] }) ∧
    GetNextGate Gex (mocusLoop Gex {1} { lits := {1}, trace := [] }).2 = 0 :=
  ⟨by decide,
   (claim5_theorem Gex {1} { lits := {1}, trace := [] } (by decide)).1,
   (claim5_theorem Gex {1} { lits := {1}, trace := [] } (by decide)).2.1⟩

/-- Claim C10: if every literal of the container is a key of the local
gates map (as holds at the start of `AnalyzeModule`, where both are the
module gate's gate arguments), then the gate returned by `GetNextGate` is
a key of the map, the loop — which extends the map with each expanded
gate's arguments — preserves the inclusion, and every module returned by
`GatherModules` afterwards is a key of the final map; the unchecked
`gates.find(...)->second` lookups therefore always succeed. -/
theorem claim10_theorem (G : ModGraph) (gates : Finset Nat) (c : CutSetContainer)
    (hsub : c.lits ⊆ gates) :
    (GetNextGate G c ≠ 0 → GetNextGate G c ∈ gates) ∧
    (mocusLoop G gates c).2.lits ⊆ (mocusLoop G gates c).1 ∧
    (∀ m ∈ GatherModules G (mocusLoop G gates c).2, m ∈ (mocusLoop G gates c).1) := by
  refine ⟨fun h => hsub (GetNextGate_mem G c h).1, mocusLoop_subset G gates c hsub, ?_⟩
  intro m hm
  rw [GatherModules, Finset.mem_sort] at hm
  exact mocusLoop_subset G gates c hsub (Finset.mem_of_mem_filter _ hm)

/-- Witness for claim C10 on the concrete graph `Gex`, seeded exactly as
`AnalyzeModule Gex 4` seeds its loop. -/
theorem claim10_witness :
    (({1} : Finset Nat) ⊆ ({1} : Finset Nat)) ∧
    (GetNextGate Gex { lits := {1}, trace := [] } ≠ 0 →
      GetNextGate Gex { lits := {1}, trace := [] } ∈ ({1} : Finset Nat)) ∧
    (mocusLoop Gex {1} { lits := {1}, trace := [] }).2.lits ⊆
      (mocusLoop Gex {1} { lits := {1}, trace := [] }).1 :=
  ⟨by decide,
   (claim10_theorem Gex {1} { lits := {1}, trace := [] } (by decide)).1,
   (claim10_theorem Gex {1} { lits := {1}, trace := [] } (by decide)).2.1⟩

/-! ### Claim C6: Mocus on a constant or pass-through graph -/

/-- The information about the preprocessed Boolean graph consumed by the
`Mocus` constructor: the root gate's state and type and, for a NULL-type
(pass-through) root, its argument literals. -/
structure FaultTreeView where
  rootState : State
  rootType : Operator
  rootArgLits : List Int
deriving DecidableEq, Repr

/-- `IGate::IsConstant` as used by `mocus.cc` (modelled from the spec: the
state is Null or Unity rather than Normal). -/
def IsConstantRoot (ft : FaultTreeView) : Bool :=
  decide (ft.rootState ≠ kNormalState)

/-- The products (cut sets as lists of literals) extracted from a ZBDD. -/
structure ZbddResult where
  products : List (List Int)
deriving DecidableEq, Repr

/-- Modelled from the spec: `Zbdd` built directly from a graph whose root
is constant or of NULL type, then analyzed — a Null root yields no cut
sets, a Unity root the single empty cut set, and a pass-through root one
unit cut set per argument literal. -/
def zbddConstantAnalyze (ft : FaultTreeView) : ZbddResult :=
  if ft.rootState = kNullState then { products := [] }
  else if ft.rootState = kUnityState then { products := [[]] }
  else { products := ft.rootArgLits.map (fun l => [l]) }

/-- The state of a `Mocus` analysis: the `constant_graph_` flag and the
optional ZBDD holding the results. -/
structure MocusState where
  constant_graph_ : Bool
  zbdd_ : Option ZbddResult
deriving DecidableEq, Repr

/-- The `Mocus` constructor: when the root is constant or of NULL type it
marks the graph constant and immediately builds and analyzes a ZBDD from
the graph; otherwise no ZBDD exists yet. -/
def Mocus.init (ft : FaultTreeView) : MocusState :=
  if IsConstantRoot ft = true ∨ ft.rootType = kNullGate then
    { constant_graph_ := true, zbdd_ := some (zbddConstantAnalyze ft) }
  else
    { constant_graph_ := false, zbdd_ := none }

/-- `Mocus::Analyze`: returns immediately when the graph is constant;
otherwise it stores the ZBDD produced by `AnalyzeModule` on the root
(abstracted by `full`).  The returned Boolean records whether
`AnalyzeModule` ran. -/
def Mocus.Analyze (m : MocusState) (full : ZbddResult) : MocusState × Bool :=
  if m.constant_graph_ then (m, false)
  else ({ m with zbdd_ := some full }, true)

/-- `Mocus::products`: asserts that the ZBDD exists (`assert(zbdd_)`);
`none` models the assertion failure. -/
def Mocus.products (m : MocusState) : Option (List (List Int)) :=
  m.zbdd_.map ZbddResult.products

/-- Claim C6: when the root gate is constant (Null or Unity state) or of
NULL type, `Mocus` performs no gate expansion — `Analyze` returns
immediately without running `AnalyzeModule` and leaves the
constructor-built state untouched — and `products()` still yields a valid
result (empty for a Null root) rather than an error. -/
theorem claim6_theorem (ft : FaultTreeView) (full : ZbddResult)
    (h : ft.rootState ≠ kNormalState ∨ ft.rootType = kNullGate) :
    (Mocus.Analyze (Mocus.init ft) full).2 = false ∧
    (Mocus.Analyze (Mocus.init ft) full).1 = Mocus.init ft ∧
    (Mocus.products (Mocus.Analyze (Mocus.init ft) full).1).isSome = true ∧
    (ft.rootState = kNullState →
      Mocus.products (Mocus.Analyze (Mocus.init ft) full).1 = some []) := by
  have hc : Mocus.init ft =
      { constant_graph_ := true, zbdd_ := some (zbddConstantAnalyze ft) } := by
    rw [Mocus.init, if_pos]
    rcases h with h | h
    · exact Or.inl (by simpa [IsConstantRoot] using h)
    · exact Or.inr h
  rw [hc]
  refine ⟨by simp [Mocus.Analyze], by simp [Mocus.Analyze], by simp [Mocus.Analyze, Mocus.products], ?_⟩
  intro hn
  simp [Mocus.Analyze, Mocus.products, zbddConstantAnalyze, hn]

/-- Witness for claim C6: a graph whose root is in the Null state. -/
theorem claim6_witness :
    ((⟨kNullState, kAndGate, []⟩ : FaultTreeView).rootState ≠ kNormalState ∨
      (⟨kNullState, kAndGate, []⟩ : FaultTreeView).rootType = kNullGate) ∧
    (Mocus.Analyze (Mocus.init ⟨kNullState, kAndGate, []⟩) ⟨[]⟩).2 = false ∧
    (Mocus.products (Mocus.Analyze (Mocus.init ⟨kNullState, kAndGate, []⟩) ⟨[]⟩).1).isSome
      = true :=
  ⟨by decide,
   (claim6_theorem ⟨kNullState, kAndGate, []⟩ ⟨[]⟩ (by decide)).1,
   (claim6_theorem ⟨kNullState, kAndGate, []⟩ ⟨[]⟩ (by decide)).2.2.1⟩

/-! ### Claim C7: the probability approximations -/

/-- Modelled from the spec: `ProbabilityAnalysis::ProbAnd` — the product
of the probabilities of a cut set's members, accumulated left to right as
the C++ loop multiplies into `p_sub_set`. -/
def ProbAnd (var_probs_ : Nat → ℚ) (cut_set : List Nat) : ℚ :=
  cut_set.foldl (fun p i => p * var_probs_ i) 1

/-- Modelled from the spec: `ProbabilityAnalysis::ProbRareEvent` — the sum
of the cut-set probabilities. -/
def ProbRareEvent (var_probs_ : Nat → ℚ) (min_cut_sets : List (List Nat)) : ℚ :=
  min_cut_sets.foldl (fun sum cs => sum + ProbAnd var_probs_ cs) 0

/-- Modelled from the spec: `ProbabilityAnalysis::ProbMcub` — one minus
the product of the complements of the cut-set probabilities. -/
def ProbMcub (var_probs_ : Nat → ℚ) (min_cut_sets : List (List Nat)) : ℚ :=
  1 - min_cut_sets.foldl (fun mcub cs => mcub * (1 - ProbAnd var_probs_ cs)) 1

theorem foldl_mul_eq {α : Type} (f : α → ℚ) (l : List α) :
    ∀ a : ℚ, l.foldl (fun p i => p * f i) a = a * (l.map f).prod := by
  induction l with
  | nil =>
      intro a
      simp
  | cons x xs ih =>
      intro a
      simp only [List.foldl_cons, List.map_cons, List.prod_cons]
      rw [ih]
      ring

theorem foldl_add_eq {α : Type} (f : α → ℚ) (l : List α) :
    ∀ a : ℚ, l.foldl (fun p i => p + f i) a = a + (l.map f).sum := by
  induction l with
  | nil =>
      intro a
      simp
  | cons x xs ih =>
      intro a
      simp only [List.foldl_cons, List.map_cons, List.sum_cons]
      rw [ih]
      ring

/-- Claim C7: over independent basic events, `ProbAnd` of a cut set is the
product of its members' probabilities, `ProbRareEvent` is the sum of the
cut sets' `ProbAnd` values, and `ProbMcub` is one minus the product of
their complements. -/
theorem claim7_theorem (var_probs_ : Nat → ℚ) (cut_set : List Nat)
    (min_cut_sets : List (List Nat)) :
    ProbAnd var_probs_ cut_set = (cut_set.map var_probs_).prod ∧
    ProbRareEvent var_probs_ min_cut_sets =
      (min_cut_sets.map (ProbAnd var_probs_)).sum ∧
    ProbMcub var_probs_ min_cut_sets =
      1 - (min_cut_sets.map (fun cs => 1 - ProbAnd var_probs_ cs)).prod := by
  refine ⟨?_, ?_, ?_⟩
  · rw [ProbAnd, foldl_mul_eq, one_mul]
  · rw [ProbRareEvent, foldl_add_eq, zero_add]
  · rw [ProbMcub, foldl_mul_eq, one_mul]

/-! ### Claim C8: the visit counters of `Node` -/

/-- The visit bookkeeping of `class Node`: `visits_[0..2]` are the enter,
exit and last visit times, 0 meaning unset. -/
structure Node where
  visits_0 : Nat
  visits_1 : Nat
  visits_2 : Nat
deriving DecidableEq, Repr

/-- A node with cleared visits (`Node::ClearVisits` fills the array with
zeros; a fresh node starts the same way). -/
def Node.cleared : Node :=
  { visits_0 := 0, visits_1 := 0, visits_2 := 0 }

/-- `Node::Visit` (inline in `boolean_graph.h`): record the enter time on
the first call, the exit time on the second, and the last-visit time —
returning true — on every further call. -/
def Node.Visit (n : Node) (time : Nat) : Node × Bool :=
  if n.visits_0 = 0 then ({ n with visits_0 := time }, false)
  else if n.visits_1 = 0 then ({ n with visits_1 := time }, false)
  else ({ n with visits_2 := time }, true)

/-- `Node::EnterTime`. -/
def Node.EnterTime (n : Node) : Nat := n.visits_0

/-- `Node::ExitTime`. -/
def Node.ExitTime (n : Node) : Nat := n.visits_1

/-- `Node::LastVisit`: `visits_[2] ? visits_[2] : visits_[1]`. -/
def Node.LastVisit (n : Node) : Nat :=
  if n.visits_2 ≠ 0 then n.visits_2 else n.visits_1

/-- Claim C8: starting from a cleared node and calling `Visit` with
positive times, the first call records the enter time and returns false,
the second records the exit time and returns false, and every subsequent
call (any node whose enter and exit times are set) records the last-visit
time and returns true, leaving enter and exit untouched. -/
theorem claim8_theorem (t1 t2 t3 : Nat) (h1 : 0 < t1) (h2 : 0 < t2) (h3 : 0 < t3) :
    Node.Visit Node.cleared t1 = ({ visits_0 := t1, visits_1 := 0, visits_2 := 0 }, false) ∧
    (Node.Visit Node.cleared t1).1.EnterTime = t1 ∧
    Node.Visit (Node.Visit Node.cleared t1).1 t2 =
      ({ visits_0 := t1, visits_1 := t2, visits_2 := 0 }, false) ∧
    (Node.Visit (Node.Visit Node.cleared t1).1 t2).1.ExitTime = t2 ∧
    (∀ n : Node, n.visits_0 ≠ 0 → n.visits_1 ≠ 0 →
      Node.Visit n t3 = ({ n with visits_2 := t3 }, true) ∧
      (Node.Visit n t3).1.LastVisit = t3 ∧
      (Node.Visit n t3).1.EnterTime = n.EnterTime ∧
      (Node.Visit n t3).1.ExitTime = n.ExitTime) := by
  have ht1 : t1 ≠ 0 := by omega
  have ht3 : t3 ≠ 0 := by omega
  refine ⟨?_, ?_, ?_, ?_, ?_⟩
  · simp [Node.Visit, Node.cleared]
  · simp [Node.Visit, Node.cleared, Node.EnterTime]
  · simp [Node.Visit, Node.cleared, ht1]
  · simp [Node.Visit, Node.cleared, ht1, Node.ExitTime]
  · intro n h0 h1'
    refine ⟨?_, ?_, ?_, ?_⟩
    · simp [Node.Visit, h0, h1']
    · simp [Node.Visit, h0, h1', Node.LastVisit, ht3]
    · simp [Node.Visit, h0, h1', Node.EnterTime]
    · simp [Node.Visit, h0, h1', Node.ExitTime]

/-- Witness for claim C8 with visit times 1, 2, 3. -/
theorem claim8_witness :
    (0 < 1 ∧ 0 < 2 ∧ 0 < 3) ∧
    Node.Visit Node.cleared 1 = ({ visits_0 := 1, visits_1 := 0, visits_2 := 0 }, false) ∧
    Node.Visit (Node.Visit Node.cleared 1).1 2 =
      ({ visits_0 := 1, visits_1 := 2, visits_2 := 0 }, false) :=
  ⟨⟨by decide, by decide, by decide⟩,
   (claim8_theorem 1 2 3 (by decide) (by decide) (by decide)).1,
   (claim8_theorem 1 2 3 (by decide) (by decide) (by decide)).2.2.1⟩

/-! ### Claim C9: `BooleanGraph::GetBasicEvent` -/

/-- `BooleanGraph::GetBasicEvent` (inline in `boolean_graph.h`): returns
`basic_events_[index - 1]` under the asserted preconditions `index > 0`
and `index <= basic_events_.size()`. -/
def GetBasicEvent {α : Type} (basic_events_ : List α) (index : Nat)
    (_h1 : 0 < index) (h2 : index ≤ basic_events_.length) : α :=
  basic_events_.get ⟨index - 1, by omega⟩

/-- Modelled from the spec: during `BooleanGraph` construction each basic
event is given the next variable index (`Variable::next_variable_`,
starting at 1) in the order in which `basic_events_` records them. -/
def assignFrom {α : Type} (next_variable_ : Nat) : List α → List (Nat × α)
  | [] => []
  | e :: rest => (next_variable_, e) :: assignFrom (next_variable_ + 1) rest

/-- The densely packed index assignment `1..n` for the basic events. -/
def assignIndices {α : Type} (basic_events : List α) : List (Nat × α) :=
  assignFrom 1 basic_events

theorem assignFrom_get {α : Type} (l : List α) :
    ∀ (n i : Nat) (e : α), (i, e) ∈ assignFrom n l →
      n ≤ i ∧ i < n + l.length ∧ ∀ h : i - n < l.length, l.get ⟨i - n, h⟩ = e := by
  induction l with
  | nil =>
      intro n i e hm
      simp [assignFrom] at hm
  | cons x xs ih =>
      intro n i e hm
      rw [assignFrom] at hm
      rcases List.mem_cons.mp hm with heq | hm'
      · have hi : i = n ∧ e = x := by
          constructor <;> [exact congrArg Prod.fst heq; exact congrArg Prod.snd heq]
        obtain ⟨rfl, rfl⟩ := hi
        refine ⟨le_refl i, by simp, ?_⟩
        intro h
        simp [Nat.sub_self]
      · obtain ⟨hle, hlt, hget⟩ := ih (n + 1) i e hm'
        refine ⟨by omega, by simp only [List.length_cons]; omega, ?_⟩
        intro h
        have hsub : i - n = (i - (n + 1)) + 1 := by omega
        have hlen : i - (n + 1) < xs.length := by omega
        calc (x :: xs).get ⟨i - n, h⟩
            = (x :: xs).get ⟨(i - (n + 1)) + 1, by omega⟩ := by
              congr 1
              exact Fin.ext hsub
          _ = xs.get ⟨i - (n + 1), hlen⟩ := rfl
          _ = e := hget hlen

/-- Claim C9: for basic events assigned densely packed indices `1..n`,
`GetBasicEvent i` (whose asserted precondition is `1 ≤ i ≤ n`) returns the
event stored at position `i - 1`, which is exactly the event that was
assigned index `i`. -/
theorem claim9_theorem {α : Type} (basic_events : List α) (i : Nat) (e : α)
    (hm : (i, e) ∈ assignIndices basic_events) :
    ∃ (h1 : 0 < i) (h2 : i ≤ basic_events.length),
      GetBasicEvent basic_events i h1 h2 = e := by
  obtain ⟨hle, hlt, hget⟩ := assignFrom_get basic_events 1 i e hm
  refine ⟨by omega, by omega, ?_⟩
  exact hget (by omega)

/-- Witness for claim C9: the event assigned index 2 in a three-event
graph is recovered by `GetBasicEvent 2`. -/
theorem claim9_witness :
    ((2, (20 : Nat)) ∈ assignIndices [10, 20, 30]) ∧
    ∃ (h1 : 0 < 2) (h2 : 2 ≤ ([10, 20, 30] : List Nat).length),
      GetBasicEvent [10, 20, 30] 2 h1 h2 = 20 :=
  ⟨by decide, claim9_theorem [10, 20, 30] 2 20 (by decide)⟩

end scram
